import Mathlib

/-!
Verification of the computational-graph engine (`src/graph.rs`).

The Rust code is a demand-driven memoized scalar DAG: each `Node` holds strong
(`Rc`) edges to its operands (`inputs`), weak back-edges to its dependents
(`outputs`), an optional cached value, a diagnostic `name` and an operator tag
`node_t`.  `compute` is recursive memoized evaluation, `invalidate` recursively
clears caches along `outputs`, and `set` (on a `Param`) invalidates and then
stores the new value.

Shallow embedding:
* The `Rc<RefCell<Node>>` heap is a store `Graph` mapping node ids to
  `Option Node`; a `none` slot is a node whose last strong reference was
  dropped (so a `Weak` upgrade fails).  `inputs`/`outputs` hold ids.
* `f32` scalars are modeled as exact rationals `Val := ℚ`; every numeric fact
  checked below (sums of small integers) is exact in `f32` as well.
* The recursive Rust methods `compute`, `invalidate` and `set` become the
  fueled, structurally recursive functions `computeFuel`, `invalidateFuel`
  and `setFuel`; fuel bounds the recursion depth only, and we prove that
  `graph size + 1` fuel always suffices on well-formed graphs, so no fuel
  value is observable.  A `compute` result `Except.error name` models the
  Rust panic `"Please set value for input <name>"`.
* The transcendental factories `pow_f32`/`sin` of the source wrap the same
  constructor `Node.new` with `BinaryB2nd`/`UnaryFn` payloads; the evaluator
  cases for those tags are embedded below, while the two factory wrappers
  themselves are not needed by any claim (their payload functions have no
  exact rational counterpart).
-/

namespace CompGraph

/-- Scalars: the `f32` values of the source, modeled exactly. -/
abbrev Val := ℚ

/-- Node identifiers: indices into the store (the `Rc` pointers of the source). -/
abbrev NodeId := Nat

/-- The `enum NodeType` of `graph.rs`. -/
inductive NodeType where
  | Param : NodeType
  | UnaryFn : (Val → Val) → NodeType
  | BinaryFn : (Val → Val → Val) → NodeType
  | BinaryB2nd : (Val → Val → Val) → Val → NodeType

/-- The `struct Node` of `graph.rs`.  `inputs` are the strong operand edges,
`outputs` the weak dependent back-edges. -/
structure Node where
  inputs : List NodeId
  outputs : List NodeId
  cache : Option Val
  name : String
  node_t : NodeType

/-- The heap of `Rc<RefCell<Node>>` cells: slot `i` is `none` once the node has
been dropped (a `Weak::upgrade` failure). -/
structure Graph where
  nodes : List (Option Node)

/-- Dereference a node id (an `Rc` deref / successful `Weak::upgrade`). -/
def Graph.get (g : Graph) (i : NodeId) : Option Node :=
  g.nodes[i]?.join

/-- Write back one node cell (a `RefCell` mutation). -/
def Graph.setNode (g : Graph) (i : NodeId) (n : Node) : Graph :=
  ⟨g.nodes.set i (some n)⟩

/-- Drop the last strong reference to node `i`: the cell is reclaimed. -/
def Graph.dropNode (g : Graph) (i : NodeId) : Graph :=
  ⟨g.nodes.set i none⟩

/-- The loop in `Node::new` pushing `Rc::downgrade(&node)` onto each operand's
`outputs` list (one push per occurrence, in operand order). -/
def registerOutputs : Graph → List NodeId → NodeId → Graph
  | g, [], _ => g
  | g, j :: js, i =>
    registerOutputs
      (match g.get j with
       | some m => g.setNode j { m with outputs := m.outputs ++ [i] }
       | none => g) js i

/-- Constructor `Node::new` of `graph.rs`: allocate a fresh node (empty cache, no
dependents yet) and register it as a dependent of each operand. -/
def Node.new (g : Graph) (name : String) (node_t : NodeType)
    (inputs : List NodeId) : Graph × NodeId :=
  let i := g.nodes.length
  let g1 : Graph := ⟨g.nodes ++ [some ⟨inputs, [], none, name, node_t⟩]⟩
  (registerOutputs g1 inputs i, i)

/-- Factory `create_input` of `graph.rs`. -/
def create_input (g : Graph) (name : String) : Graph × NodeId :=
  Node.new g name .Param []

/-- Factory `add` of `graph.rs`. -/
def add (g : Graph) (input1 input2 : NodeId) : Graph × NodeId :=
  Node.new g "add" (.BinaryFn (fun x y => x + y)) [input1, input2]

/-- Factory `mul` of `graph.rs`. -/
def mul (g : Graph) (input1 input2 : NodeId) : Graph × NodeId :=
  Node.new g "mul" (.BinaryFn (fun x y => x * y)) [input1, input2]

/-- Clearing one cache slot (`self.cache = None`). -/
def clearCache (n : Node) : Node := { n with cache := none }

/-- The `for`-loop of `Node::invalidate` over the `outputs` list, threading the
heap; `f` is the recursive invalidation call. -/
def invalidateListGo (f : Graph → NodeId → Option Graph) :
    Graph → List NodeId → Option Graph
  | g, [] => some g
  | g, j :: js =>
    match f g j with
    | none => none
    | some g1 => invalidateListGo f g1 js

/-- Method `Node::invalidate` of `graph.rs`: clear the cache, then recursively
invalidate every output whose `Weak` upgrade succeeds (dead entries are
skipped).  Fuel bounds only the recursion depth; `none` means fuel ran out
(shown impossible on well-formed graphs). -/
def invalidateFuel : Nat → Graph → NodeId → Option Graph
  | 0, _, _ => none
  | fuel+1, g, i =>
    match g.get i with
    | none => some g
    | some n =>
      invalidateListGo (invalidateFuel fuel)
        (g.setNode i (clearCache n)) n.outputs

/-- Method `Node::set` of `graph.rs`: on a `Param`, invalidate first, then store the
value; on every other node kind, do nothing. -/
def setFuel (fuel : Nat) (g : Graph) (i : NodeId) (v : Val) : Option Graph :=
  match g.get i with
  | none => none
  | some n =>
    match n.node_t with
    | .Param =>
      (invalidateFuel fuel g i).map (fun g1 => g1.setNode i { n with cache := some v })
    | _ => some g

/-- Method `Node::compute` of `graph.rs`: return the cache if present, otherwise
dispatch on the node kind, computing operands left to right, then store the
result in the cache.  `Except.error name` models the panic on an unset
parameter, returned together with the heap at the moment of the panic. -/
def computeFuel : Nat → Graph → NodeId → Option (Graph × Except String Val)
  | 0, _, _ => none
  | fuel+1, g, i =>
    match g.get i with
    | none => none
    | some n =>
      match n.cache with
      | some v => some (g, .ok v)
      | none =>
        match n.node_t with
        | .Param => some (g, .error n.name)
        | .UnaryFn f =>
          match n.inputs with
          | a :: _ =>
            match computeFuel fuel g a with
            | none => none
            | some (g1, .error e) => some (g1, .error e)
            | some (g1, .ok x) =>
              some (g1.setNode i { n with cache := some (f x) }, .ok (f x))
          | [] => none
        | .BinaryFn f =>
          match n.inputs with
          | a :: b :: _ =>
            match computeFuel fuel g a with
            | none => none
            | some (g1, .error e) => some (g1, .error e)
            | some (g1, .ok x) =>
              match computeFuel fuel g1 b with
              | none => none
              | some (g2, .error e) => some (g2, .error e)
              | some (g2, .ok y) =>
                some (g2.setNode i { n with cache := some (f x y) }, .ok (f x y))
          | _ => none
        | .BinaryB2nd f c =>
          match n.inputs with
          | a :: _ =>
            match computeFuel fuel g a with
            | none => none
            | some (g1, .error e) => some (g1, .error e)
            | some (g1, .ok x) =>
              some (g1.setNode i { n with cache := some (f x c) }, .ok (f x c))
          | [] => none

/-- The mathematical value of a node under the current parameter values: the
same dispatch as `compute`, but reading only parameter caches, never operator
caches, and writing nothing.  This is the specification `compute` is measured
against: a cached value is *valid* iff it equals this denotation. -/
def denoteFuel : Nat → Graph → NodeId → Option (Except String Val)
  | 0, _, _ => none
  | fuel+1, g, i =>
    match g.get i with
    | none => none
    | some n =>
      match n.node_t with
      | .Param =>
        match n.cache with
        | some v => some (.ok v)
        | none => some (.error n.name)
      | .UnaryFn f =>
        match n.inputs with
        | a :: _ =>
          match denoteFuel fuel g a with
          | none => none
          | some (.error e) => some (.error e)
          | some (.ok x) => some (.ok (f x))
        | [] => none
      | .BinaryFn f =>
        match n.inputs with
        | a :: b :: _ =>
          match denoteFuel fuel g a with
          | none => none
          | some (.error e) => some (.error e)
          | some (.ok x) =>
            match denoteFuel fuel g b with
            | none => none
            | some (.error e) => some (.error e)
            | some (.ok y) => some (.ok (f x y))
        | _ => none
      | .BinaryB2nd f c =>
        match n.inputs with
        | a :: _ =>
          match denoteFuel fuel g a with
          | none => none
          | some (.error e) => some (.error e)
          | some (.ok x) => some (.ok (f x c))
        | [] => none

/-- Canonical denotation: on well-formed graphs operand ids strictly decrease,
so depth `i + 1` always suffices for node `i`. -/
def Graph.denote (g : Graph) (i : NodeId) : Option (Except String Val) :=
  denoteFuel (i + 1) g i

/-- Operand edge: node `i` is live and lists `j` among its operands. -/
def inEdge (g : Graph) (i j : NodeId) : Prop :=
  ∃ n, g.get i = some n ∧ j ∈ n.inputs

/-- Relation `DepOn g i j`: evaluation of `i` may read `j` (reflexive-transitive closure
of the operand edges). -/
def DepOn (g : Graph) : NodeId → NodeId → Prop :=
  Relation.ReflTransGen (inEdge g)

/-- Dependent edge followed by `invalidate`: a live `outputs` entry. -/
def outEdge (g : Graph) (i j : NodeId) : Prop :=
  ∃ n, g.get i = some n ∧ j ∈ n.outputs ∧ (g.get j).isSome

/-- Relation `OutReach g i j`: `j` is downstream of `i` along resolvable dependent
back-edges (the nodes `invalidate` walks). -/
def OutReach (g : Graph) : NodeId → NodeId → Prop :=
  Relation.ReflTransGen (outEdge g)

/-- Arity fixed by each operator kind (enforced by the factories). -/
def ArityOk : NodeType → List NodeId → Prop
  | .Param, l => l = []
  | .UnaryFn _, l => l.length = 1
  | .BinaryFn _, l => l.length = 2
  | .BinaryB2nd _ _, l => l.length = 1

/-- Structural well-formedness of every reachable heap: nodes are appended in
creation order, so operand ids strictly decrease (the graph is acyclic),
operands are kept alive by their `Rc` edges, dependent ids strictly increase,
and arities match the kinds. -/
def Graph.Wf (g : Graph) : Prop :=
  ∀ i n, g.get i = some n →
    (∀ j ∈ n.inputs, j < i ∧ (g.get j).isSome) ∧
    (∀ j ∈ n.outputs, i < j) ∧
    ArityOk n.node_t n.inputs

/-- Invariant: `dependents` inverts `operands`: every live node is registered in each of
its operands' `outputs` lists (established by `Node::new`). -/
def InvEdge (g : Graph) : Prop :=
  ∀ j m, g.get j = some m → ∀ a ∈ m.inputs, ∃ na, g.get a = some na ∧ j ∈ na.outputs

/-- A `Param` has no operands, hence never occurs in an `outputs` list. -/
def NoParamOutput (g : Graph) : Prop :=
  ∀ a na, g.get a = some na → ∀ j ∈ na.outputs, ∀ nj, g.get j = some nj → nj.node_t ≠ .Param

/-- Every id ever stored in an `outputs` list was allocated, so is below the
store length (the store only grows). -/
def OutBounded (g : Graph) : Prop :=
  ∀ a na, g.get a = some na → ∀ j ∈ na.outputs, j < g.nodes.length

/-- The cache-validity invariant: a present cache holds exactly the node's
denotation under the current parameter values. -/
def CacheOk (g : Graph) : Prop :=
  ∀ i n v, g.get i = some n → n.cache = some v → g.denote i = some (Except.ok v)

/-- The full invariant of reachable heaps. -/
def Inv (g : Graph) : Prop :=
  g.Wf ∧ InvEdge g ∧ NoParamOutput g ∧ OutBounded g ∧ CacheOk g

/-- Two node cells agree on everything except possibly the cache. -/
def StructEq : Option Node → Option Node → Prop
  | none, none => True
  | some n, some m =>
      n.inputs = m.inputs ∧ n.outputs = m.outputs ∧ n.name = m.name ∧ n.node_t = m.node_t
  | _, _ => False

/-- Two node cells agree on everything the denotation reads: liveness,
operands, kind, name, and the cache when the node is a parameter. -/
def DenoteEq : Option Node → Option Node → Prop
  | none, none => True
  | some n, some m =>
      n.inputs = m.inputs ∧ n.name = m.name ∧ n.node_t = m.node_t ∧
      (n.node_t = .Param → n.cache = m.cache)
  | _, _ => False

/-- How `compute` may change one cell: structure and parameter caches intact,
operator caches only ever gaining a value. -/
def ComputeFrameAt : Option Node → Option Node → Prop
  | none, none => True
  | some n, some m =>
      n.inputs = m.inputs ∧ n.outputs = m.outputs ∧ n.name = m.name ∧
      n.node_t = m.node_t ∧ (n.node_t = .Param → m.cache = n.cache) ∧
      (∀ v, n.cache = some v → m.cache = some v)
  | _, _ => False

/-- What one `invalidate` call does to the heap: every node downstream of `i`
(along resolvable dependent edges, `i` included) has its cache cleared and is
otherwise untouched; every other cell is untouched. -/
def InvSpec (g : Graph) (i : NodeId) (g' : Graph) : Prop :=
  (∀ j, ¬ OutReach g i j → g'.get j = g.get j) ∧
  (∀ j, OutReach g i j → g'.get j = (g.get j).map clearCache) ∧
  g'.nodes.length = g.nodes.length

/-- The heaps reachable through the public operation surface: start from the
empty heap; build nodes with the factory (operands must be live, arities fixed
by the kind, as in `create_input`/`add`/`mul`/`pow_f32`/`sin`); call `set` and
`compute` with enough fuel (shown sufficient in `C8`); drop a node once no
node holds a strong reference to it. -/
inductive Reachable : Graph → Prop where
  | empty : Reachable (Graph.mk [])
  | factory {g : Graph} (name : String) (t : NodeType) (inputs : List NodeId) :
      Reachable g → (∀ j ∈ inputs, (g.get j).isSome) → ArityOk t inputs →
      Reachable (Node.new g name t inputs).1
  | set {g g' : Graph} {i : NodeId} {v : Val} :
      Reachable g → setFuel (g.nodes.length + 1) g i v = some g' → Reachable g'
  | compute {g g' : Graph} {i : NodeId} {r : Except String Val} :
      Reachable g → computeFuel (g.nodes.length + 1) g i = some (g', r) →
      Reachable g'
  | drop {g : Graph} {i : NodeId} :
      Reachable g → (∀ j n, g.get j = some n → i ∉ n.inputs) →
      Reachable (g.dropNode i)

/-- Test fixture for the sharing scenario: the parameter `x`. -/
def c5Param : Graph × NodeId := create_input (Graph.mk []) "x"

/-- Test fixture: the shared sum `g = add(x, x)`. -/
def c5Add : Graph × NodeId := add c5Param.1 c5Param.2 c5Param.2

/-- Test fixture: the heap after `set(x, 5)` on the shared-sum graph. -/
def c5State : Option Graph := setFuel (c5Add.1.nodes.length + 1) c5Add.1 c5Param.2 5

/-- Test fixture for the failure scenarios: parameter `a`. -/
def c10ParamA : Graph × NodeId := create_input (Graph.mk []) "a"

/-- Test fixture: parameter `b`, never set. -/
def c10ParamB : Graph × NodeId := create_input c10ParamA.1 "b"

/-- Test fixture: `g = add(a, b)`. -/
def c10Top : Graph × NodeId := add c10ParamB.1 c10ParamA.2 c10ParamB.2

/-- Test fixture: the heap after `set(a, 5)` in the flat scenario. -/
def c10StateA : Option Graph :=
  setFuel (c10Top.1.nodes.length + 1) c10Top.1 c10ParamA.2 5

/-- Test fixture: `inner = add(a, a)`. -/
def c10Inner : Graph × NodeId := add c10ParamB.1 c10ParamA.2 c10ParamA.2

/-- Test fixture: `top = add(inner, b)`. -/
def c10Nested : Graph × NodeId := add c10Inner.1 c10Inner.2 c10ParamB.2

/-- Test fixture: the heap after `set(a, 5)` in the nested scenario. -/
def c10StateB : Option Graph :=
  setFuel (c10Nested.1.nodes.length + 1) c10Nested.1 c10ParamA.2 5

theorem clearCache_of_none {n : Node} (h : n.cache = none) : clearCache n = n := by
  cases n; cases h; rfl

theorem clearCache_idem (n : Node) : clearCache (clearCache n) = clearCache n := rfl

theorem get_lt_length {g : Graph} {i : NodeId} {n : Node} (h : g.get i = some n) :
    i < g.nodes.length := by
  by_contra hlt
  rw [Graph.get, List.getElem?_eq_none (Nat.le_of_not_lt hlt)] at h
  exact Option.noConfusion h

theorem setNode_length (g : Graph) (i : NodeId) (n : Node) :
    (g.setNode i n).nodes.length = g.nodes.length :=
  List.length_set ..

theorem get_setNode_self {g : Graph} {i : NodeId} (h : i < g.nodes.length) (n : Node) :
    (g.setNode i n).get i = some n := by
  rw [Graph.setNode, Graph.get]
  simp [List.getElem?_set, h]

theorem get_setNode_ne (g : Graph) {i j : NodeId} (h : j ≠ i) (n : Node) :
    (g.setNode i n).get j = g.get j := by
  rw [Graph.setNode, Graph.get, Graph.get]
  rw [List.getElem?_set_ne (fun he => h he.symm)]

theorem dropNode_length (g : Graph) (i : NodeId) :
    (g.dropNode i).nodes.length = g.nodes.length :=
  List.length_set ..

theorem get_dropNode_self (g : Graph) (i : NodeId) : (g.dropNode i).get i = none := by
  rw [Graph.dropNode, Graph.get]
  rcases Nat.lt_or_ge i g.nodes.length with h | h
  · simp [List.getElem?_set, h]
  · rw [List.getElem?_eq_none]; · rfl
    · simpa using h

theorem get_dropNode_ne (g : Graph) {i j : NodeId} (h : j ≠ i) :
    (g.dropNode i).get j = g.get j := by
  rw [Graph.dropNode, Graph.get, Graph.get]
  rw [List.getElem?_set_ne (fun he => h he.symm)]

theorem list_set_same : ∀ (l : List α) (i : Nat) (a : α), l[i]? = some a → l.set i a = l := by
  intro l
  induction l with
  | nil => intro i a h; simp at h
  | cons x xs ih =>
    intro i a h
    cases i with
    | zero => simp at h; simp [h]
    | succ i => simp at h ⊢; exact ih i a h

theorem setNode_same {g : Graph} {i : NodeId} {n : Node} (h : g.get i = some n) :
    g.setNode i n = g := by
  rw [Graph.get, Option.join_eq_some] at h
  cases g with
  | mk l => exact congrArg Graph.mk (list_set_same l i (some n) h)

theorem StructEq_refl : ∀ a : Option Node, StructEq a a
  | none => trivial
  | some _ => ⟨rfl, rfl, rfl, rfl⟩

theorem DenoteEq_refl : ∀ a : Option Node, DenoteEq a a
  | none => trivial
  | some _ => ⟨rfl, rfl, rfl, fun _ => rfl⟩

theorem ComputeFrameAt_refl : ∀ a : Option Node, ComputeFrameAt a a
  | none => trivial
  | some _ => ⟨rfl, rfl, rfl, rfl, fun _ => rfl, fun _ h => h⟩

theorem ComputeFrameAt.trans :
    ∀ {a b c : Option Node}, ComputeFrameAt a b → ComputeFrameAt b c → ComputeFrameAt a c
  | none, none, none, _, _ => trivial
  | some _, some _, some _, ⟨h1, h2, h3, h4, h5, h6⟩, ⟨g1, g2, g3, g4, g5, g6⟩ =>
      ⟨h1.trans g1, h2.trans g2, h3.trans g3, h4.trans g4,
       fun hp => ((g5 (h4 ▸ hp)).trans (h5 hp)),
       fun v hv => g6 v (h6 v hv)⟩

theorem ComputeFrameAt_structEq : ∀ {a b : Option Node}, ComputeFrameAt a b → StructEq a b
  | none, none, _ => trivial
  | some _, some _, ⟨h1, h2, h3, h4, _, _⟩ => ⟨h1, h2, h3, h4⟩

theorem ComputeFrameAt.denoteEq : ∀ {a b : Option Node}, ComputeFrameAt a b → DenoteEq a b
  | none, none, _ => trivial
  | some _, some _, ⟨h1, _, h3, h4, h5, _⟩ => ⟨h1, h3, h4, fun hp => (h5 hp).symm⟩

theorem StructEq.clear : ∀ a : Option Node, StructEq a (a.map clearCache)
  | none => trivial
  | some _ => ⟨rfl, rfl, rfl, rfl⟩

theorem StructEq_isSome : ∀ {a b : Option Node}, StructEq a b → (a.isSome ↔ b.isSome)
  | none, none, _ => Iff.rfl
  | some _, some _, _ => Iff.rfl

theorem StructEq.symm : ∀ {a b : Option Node}, StructEq a b → StructEq b a
  | none, none, _ => trivial
  | some _, some _, ⟨h1, h2, h3, h4⟩ => ⟨h1.symm, h2.symm, h3.symm, h4.symm⟩

theorem StructEq_get_some {a b : Option Node} (h : StructEq a b) {n : Node}
    (ha : a = some n) :
    ∃ m, b = some m ∧ n.inputs = m.inputs ∧ n.outputs = m.outputs ∧
      n.name = m.name ∧ n.node_t = m.node_t := by
  subst ha
  cases b with
  | none => simp only [StructEq] at h
  | some m => exact ⟨m, rfl, h.1, h.2.1, h.2.2.1, h.2.2.2⟩

theorem StructEq_get_none {a b : Option Node} (h : StructEq a b) (ha : a = none) :
    b = none := by
  subst ha
  cases b with
  | none => rfl
  | some m => simp only [StructEq] at h

theorem DenoteEq_get_some {a b : Option Node} (h : DenoteEq a b) {n : Node}
    (ha : a = some n) :
    ∃ m, b = some m ∧ n.inputs = m.inputs ∧ n.name = m.name ∧ n.node_t = m.node_t ∧
      (n.node_t = .Param → n.cache = m.cache) := by
  subst ha
  cases b with
  | none => simp only [DenoteEq] at h
  | some m => exact ⟨m, rfl, h.1, h.2.1, h.2.2.1, h.2.2.2⟩

theorem DenoteEq_get_none {a b : Option Node} (h : DenoteEq a b) (ha : a = none) :
    b = none := by
  subst ha
  cases b with
  | none => rfl
  | some m => simp only [DenoteEq] at h

theorem inEdge_congr {g g' : Graph} (h : ∀ j, StructEq (g.get j) (g'.get j))
    {i j : NodeId} : inEdge g i j ↔ inEdge g' i j := by
  constructor
  · rintro ⟨n, hn, hj⟩
    obtain ⟨m, hm, hi, -, -, -⟩ := StructEq_get_some (h i) hn
    exact ⟨m, hm, hi ▸ hj⟩
  · rintro ⟨n, hn, hj⟩
    obtain ⟨m, hm, hi, -, -, -⟩ := StructEq_get_some ((h i).symm) hn
    exact ⟨m, hm, hi ▸ hj⟩

theorem outEdge_congr {g g' : Graph} (h : ∀ j, StructEq (g.get j) (g'.get j))
    {i j : NodeId} : outEdge g i j ↔ outEdge g' i j := by
  constructor
  · rintro ⟨n, hn, hj, hlive⟩
    obtain ⟨m, hm, -, ho, -, -⟩ := StructEq_get_some (h i) hn
    exact ⟨m, hm, ho ▸ hj, (StructEq_isSome (h j)).mp hlive⟩
  · rintro ⟨n, hn, hj, hlive⟩
    obtain ⟨m, hm, -, ho, -, -⟩ := StructEq_get_some ((h i).symm) hn
    exact ⟨m, hm, ho ▸ hj, (StructEq_isSome (h j)).mpr hlive⟩

theorem DepOn_congr {g g' : Graph} (h : ∀ j, StructEq (g.get j) (g'.get j))
    {i j : NodeId} : DepOn g i j ↔ DepOn g' i j :=
  ⟨Relation.ReflTransGen.mono fun _ _ he => (inEdge_congr h).mp he,
   Relation.ReflTransGen.mono fun _ _ he => (inEdge_congr h).mpr he⟩

theorem OutReach_congr {g g' : Graph} (h : ∀ j, StructEq (g.get j) (g'.get j))
    {i j : NodeId} : OutReach g i j ↔ OutReach g' i j :=
  ⟨Relation.ReflTransGen.mono fun _ _ he => (outEdge_congr h).mp he,
   Relation.ReflTransGen.mono fun _ _ he => (outEdge_congr h).mpr he⟩

theorem Wf_congr {g g' : Graph} (h : ∀ j, StructEq (g.get j) (g'.get j))
    (hwf : g.Wf) : g'.Wf := by
  intro i m' hm'
  obtain ⟨m, hm, hi, ho, hn, ht⟩ := StructEq_get_some ((h i).symm) hm'
  obtain ⟨h1, h2, h3⟩ := hwf i m hm
  refine ⟨?_, ?_, ?_⟩
  · intro j hj
    obtain ⟨hlt, hlive⟩ := h1 j (hi ▸ hj)
    exact ⟨hlt, (StructEq_isSome (h j)).mp hlive⟩
  · intro j hj
    exact h2 j (ho ▸ hj)
  · exact ht ▸ hi ▸ h3

theorem InvEdge_congr {g g' : Graph} (h : ∀ j, StructEq (g.get j) (g'.get j))
    (hie : InvEdge g) : InvEdge g' := by
  intro j m' hm' a ha
  obtain ⟨m, hm, hi, -, -, -⟩ := StructEq_get_some ((h j).symm) hm'
  obtain ⟨na, hna, hj⟩ := hie j m hm a (hi ▸ ha)
  obtain ⟨na', hna', -, ho, -, -⟩ := StructEq_get_some (h a) hna
  exact ⟨na', hna', ho ▸ hj⟩

theorem NoParamOutput_congr {g g' : Graph} (h : ∀ j, StructEq (g.get j) (g'.get j))
    (hnp : NoParamOutput g) : NoParamOutput g' := by
  intro a na' hna' j hj nj' hnj'
  obtain ⟨na, hna, -, ho, -, -⟩ := StructEq_get_some ((h a).symm) hna'
  obtain ⟨nj, hnj, -, -, -, ht⟩ := StructEq_get_some ((h j).symm) hnj'
  exact ht ▸ hnp a na hna j (ho ▸ hj) nj hnj

theorem OutBounded_congr {g g' : Graph} (h : ∀ j, StructEq (g.get j) (g'.get j))
    (hlen : g'.nodes.length = g.nodes.length) (hob : OutBounded g) : OutBounded g' := by
  intro a na' hna' j hj
  obtain ⟨na, hna, -, ho, -, -⟩ := StructEq_get_some ((h a).symm) hna'
  exact hlen ▸ hob a na hna j (ho ▸ hj)

/-- The denotation of `i` reads only the cells in `i`'s operand closure, and of
those only the fields recorded by `DenoteEq`. -/
theorem denoteFuel_congr : ∀ (fuel : Nat) {g g' : Graph} {i : NodeId},
    (∀ k, DepOn g i k → DenoteEq (g.get k) (g'.get k)) →
    denoteFuel fuel g i = denoteFuel fuel g' i := by
  intro fuel
  induction fuel with
  | zero => intro g g' i _; rfl
  | succ fl ih =>
    intro g g' i H
    have h0 := H i Relation.ReflTransGen.refl
    cases hg : g.get i with
    | none =>
      have hg' := DenoteEq_get_none h0 hg
      simp only [denoteFuel, hg, hg']
    | some n =>
      obtain ⟨m, hm, hinp, hname, ht, hcache⟩ := DenoteEq_get_some h0 hg
      have hedge : ∀ a, a ∈ n.inputs → ∀ k, DepOn g a k → DenoteEq (g.get k) (g'.get k) :=
        fun a ha k hk => H k (Relation.ReflTransGen.head ⟨n, hg, ha⟩ hk)
      simp only [denoteFuel, hg, hm]
      obtain ⟨ni, no, nc, nn, nt⟩ := n
      obtain ⟨mi, mo, mc, mn, mt⟩ := m
      simp only at hinp hname ht hcache hedge ⊢
      subst hinp hname ht
      cases nt with
      | Param => rw [hcache rfl]
      | UnaryFn f =>
        cases ni with
        | nil => rfl
        | cons a rest =>
          dsimp only
          rw [ih (hedge a (List.mem_cons_self a rest))]
      | BinaryFn f =>
        cases ni with
        | nil => rfl
        | cons a rest =>
          cases rest with
          | nil => rfl
          | cons b rest2 =>
            dsimp only
            rw [ih (hedge a (by simp)), ih (hedge b (by simp))]
      | BinaryB2nd f c =>
        cases ni with
        | nil => rfl
        | cons a rest =>
          dsimp only
          rw [ih (hedge a (List.mem_cons_self a rest))]

theorem denoteFuel_congr_all {g g' : Graph}
    (h : ∀ k, DenoteEq (g.get k) (g'.get k)) (fuel : Nat) (i : NodeId) :
    denoteFuel fuel g i = denoteFuel fuel g' i :=
  denoteFuel_congr fuel (fun k _ => h k)

theorem denote_congr_all {g g' : Graph}
    (h : ∀ k, DenoteEq (g.get k) (g'.get k)) (i : NodeId) :
    g.denote i = g'.denote i :=
  denoteFuel_congr_all h (i + 1) i

/-- On a well-formed graph, any fuel above the node id yields the same
denotation: operand ids strictly decrease. -/
theorem denoteFuel_fuel_inv {g : Graph} (hwf : g.Wf) :
    ∀ i fuel fuel', i < fuel → i < fuel' →
      denoteFuel fuel g i = denoteFuel fuel' g i := by
  intro i
  induction i using Nat.strong_induction_on with
  | _ i ih =>
    intro fuel fuel' hf hf'
    obtain ⟨fl, rfl⟩ : ∃ fl, fuel = fl + 1 := ⟨fuel - 1, by omega⟩
    obtain ⟨fl', rfl⟩ : ∃ fl', fuel' = fl' + 1 := ⟨fuel' - 1, by omega⟩
    cases hg : g.get i with
    | none => simp only [denoteFuel, hg]
    | some n =>
      have hin := (hwf i n hg).1
      simp only [denoteFuel, hg]
      obtain ⟨ni, no, nc, nn, nt⟩ := n
      simp only at hin ⊢
      cases nt with
      | Param => rfl
      | UnaryFn f =>
        cases ni with
        | nil => rfl
        | cons a rest =>
          obtain ⟨ha1, -⟩ := hin a (List.mem_cons_self a rest)
          dsimp only
          rw [ih a ha1 fl fl' (Nat.lt_of_lt_of_le ha1 (Nat.lt_succ_iff.mp hf)) (Nat.lt_of_lt_of_le ha1 (Nat.lt_succ_iff.mp hf'))]
      | BinaryFn f =>
        cases ni with
        | nil => rfl
        | cons a rest =>
          cases rest with
          | nil => rfl
          | cons b rest2 =>
            obtain ⟨ha1, -⟩ := hin a (by simp)
            obtain ⟨hb1, -⟩ := hin b (by simp)
            dsimp only
            rw [ih a ha1 fl fl' (Nat.lt_of_lt_of_le ha1 (Nat.lt_succ_iff.mp hf)) (Nat.lt_of_lt_of_le ha1 (Nat.lt_succ_iff.mp hf')),
                ih b hb1 fl fl' (Nat.lt_of_lt_of_le hb1 (Nat.lt_succ_iff.mp hf)) (Nat.lt_of_lt_of_le hb1 (Nat.lt_succ_iff.mp hf'))]
      | BinaryB2nd f c =>
        cases ni with
        | nil => rfl
        | cons a rest =>
          obtain ⟨ha1, -⟩ := hin a (List.mem_cons_self a rest)
          dsimp only
          rw [ih a ha1 fl fl' (Nat.lt_of_lt_of_le ha1 (Nat.lt_succ_iff.mp hf)) (Nat.lt_of_lt_of_le ha1 (Nat.lt_succ_iff.mp hf'))]

theorem denote_eq_denoteFuel {g : Graph} (hwf : g.Wf) {i : NodeId} {fuel : Nat}
    (h : i < fuel) : g.denote i = denoteFuel fuel g i :=
  denoteFuel_fuel_inv hwf i (i + 1) fuel (Nat.lt_succ_self i) h

/-- On a well-formed graph the denotation of a live node is always defined. -/
theorem denoteFuel_isSome {g : Graph} (hwf : g.Wf) :
    ∀ i n, g.get i = some n → ∀ fuel, i < fuel → (denoteFuel fuel g i).isSome := by
  intro i
  induction i using Nat.strong_induction_on with
  | _ i ih =>
    intro n hg fuel hf
    obtain ⟨fl, rfl⟩ : ∃ fl, fuel = fl + 1 :=
      ⟨fuel - 1, (Nat.succ_pred_eq_of_pos (Nat.lt_of_le_of_lt (Nat.zero_le i) hf)).symm⟩
    have hin := (hwf i n hg).1
    have harity := (hwf i n hg).2.2
    simp only [denoteFuel, hg]
    obtain ⟨ni, no, nc, nn, nt⟩ := n
    simp only at hin harity ⊢
    cases nt with
    | Param => cases nc <;> simp
    | UnaryFn f =>
      cases ni with
      | nil => simp [ArityOk] at harity
      | cons a rest =>
        obtain ⟨ha1, ha2⟩ := hin a (List.mem_cons_self a rest)
        obtain ⟨na, hna⟩ := Option.isSome_iff_exists.mp ha2
        obtain ⟨r, hr⟩ := Option.isSome_iff_exists.mp
          (ih a ha1 na hna fl (Nat.lt_of_lt_of_le ha1 (Nat.lt_succ_iff.mp hf)))
        dsimp only
        rw [hr]
        cases r <;> simp
    | BinaryFn f =>
      cases ni with
      | nil => simp [ArityOk] at harity
      | cons a rest =>
        cases rest with
        | nil => simp [ArityOk] at harity
        | cons b rest2 =>
          obtain ⟨ha1, ha2⟩ := hin a (by simp)
          obtain ⟨hb1, hb2⟩ := hin b (by simp)
          obtain ⟨na, hna⟩ := Option.isSome_iff_exists.mp ha2
          obtain ⟨nb, hnb⟩ := Option.isSome_iff_exists.mp hb2
          obtain ⟨r, hr⟩ := Option.isSome_iff_exists.mp
            (ih a ha1 na hna fl (Nat.lt_of_lt_of_le ha1 (Nat.lt_succ_iff.mp hf)))
          obtain ⟨s, hs⟩ := Option.isSome_iff_exists.mp
            (ih b hb1 nb hnb fl (Nat.lt_of_lt_of_le hb1 (Nat.lt_succ_iff.mp hf)))
          dsimp only
          rw [hr]
          cases r with
          | error e => simp
          | ok x =>
            rw [hs]
            cases s <;> simp
    | BinaryB2nd f c =>
      cases ni with
      | nil => simp [ArityOk] at harity
      | cons a rest =>
        obtain ⟨ha1, ha2⟩ := hin a (List.mem_cons_self a rest)
        obtain ⟨na, hna⟩ := Option.isSome_iff_exists.mp ha2
        obtain ⟨r, hr⟩ := Option.isSome_iff_exists.mp
          (ih a ha1 na hna fl (Nat.lt_of_lt_of_le ha1 (Nat.lt_succ_iff.mp hf)))
        dsimp only
        rw [hr]
        cases r <;> simp

theorem denote_isSome {g : Graph} (hwf : g.Wf) {i : NodeId} {n : Node}
    (hg : g.get i = some n) : (g.denote i).isSome :=
  denoteFuel_isSome hwf i n hg (i + 1) (Nat.lt_succ_self i)

theorem clear_map_idem (o : Option Node) :
    (o.map clearCache).map clearCache = o.map clearCache := by
  cases o <;> rfl

theorem InvSpec_structEq {g : Graph} {i : NodeId} {g' : Graph} (h : InvSpec g i g') :
    ∀ j, StructEq (g.get j) (g'.get j) := by
  intro j
  by_cases hr : OutReach g i j
  · rw [h.2.1 j hr]; exact StructEq.clear _
  · rw [h.1 j hr]; exact StructEq_refl _

theorem invalidateListGo_spec (f : Graph → NodeId → Option Graph)
    (hf : ∀ g i g', f g i = some g' → InvSpec g i g') :
    ∀ (L : List NodeId) (g g' : Graph), invalidateListGo f g L = some g' →
      (∀ j, (∀ a ∈ L, ¬ OutReach g a j) → g'.get j = g.get j) ∧
      (∀ j, (∃ a ∈ L, OutReach g a j) → g'.get j = (g.get j).map clearCache) ∧
      g'.nodes.length = g.nodes.length := by
  intro L
  induction L with
  | nil =>
    intro g g' h
    have hgg : g = g' := by simpa [invalidateListGo] using h
    subst hgg
    exact ⟨fun j _ => rfl, fun j hj => absurd hj (by simp), rfl⟩
  | cons a L' ih =>
    intro g g' h
    cases hfa : f g a with
    | none => rw [invalidateListGo, hfa] at h; exact absurd h (by simp)
    | some g1 =>
      rw [invalidateListGo, hfa] at h
      have hs := hf g a g1 hfa
      have hse := InvSpec_structEq hs
      obtain ⟨ih1, ih2, ih3⟩ := ih g1 g' h
      refine ⟨?_, ?_, ih3.trans hs.2.2⟩
      · intro j hA
        have h1 : g1.get j = g.get j := hs.1 j (hA a (List.mem_cons_self a L'))
        have hA' : ∀ b ∈ L', ¬ OutReach g1 b j := fun b hb hrb =>
          hA b (List.mem_cons_of_mem a hb) ((OutReach_congr hse).mpr hrb)
        rw [ih1 j hA', h1]
      · intro j hE
        obtain ⟨b, hb, hrb⟩ := hE
        rcases List.mem_cons.mp hb with rfl | hb'
        · have h1 : g1.get j = (g.get j).map clearCache := hs.2.1 j hrb
          by_cases hx : ∃ c ∈ L', OutReach g1 c j
          · rw [ih2 j hx, h1, clear_map_idem]
          · rw [ih1 j (fun c hc hrc => hx ⟨c, hc, hrc⟩), h1]
        · have hr1 : OutReach g1 b j := (OutReach_congr hse).mp hrb
          rw [ih2 j ⟨b, hb', hr1⟩]
          by_cases hra : OutReach g a j
          · rw [hs.2.1 j hra, clear_map_idem]
          · rw [hs.1 j hra]

/-- The per-call specification of `Node::invalidate`. -/
theorem invalidateFuel_spec :
    ∀ (fuel : Nat) (g : Graph) (i : NodeId) (g' : Graph),
      invalidateFuel fuel g i = some g' → InvSpec g i g' := by
  intro fuel
  induction fuel with
  | zero => intro g i g' h; exact absurd h (by simp [invalidateFuel])
  | succ fl ih =>
    intro g i g' h
    cases hg : g.get i with
    | none =>
      simp only [invalidateFuel, hg] at h
      obtain rfl : g = g' := by simpa using h
      refine ⟨fun j _ => rfl, ?_, rfl⟩
      intro j hr
      rcases Relation.ReflTransGen.cases_head hr with rfl | ⟨c, ⟨n', hn', -⟩, -⟩
      · rw [hg]; rfl
      · rw [hn'] at hg; exact absurd hg (by simp)
    | some n =>
      simp only [invalidateFuel, hg] at h
      have hlt := get_lt_length hg
      have hg1i : (g.setNode i (clearCache n)).get i = some (clearCache n) :=
        get_setNode_self hlt _
      have hg1 : ∀ j, j ≠ i → (g.setNode i (clearCache n)).get j = g.get j :=
        fun j hj => get_setNode_ne g hj _
      have hse1 : ∀ j, StructEq (g.get j) ((g.setNode i (clearCache n)).get j) := by
        intro j
        by_cases hj : j = i
        · subst hj; rw [hg, hg1i]; exact ⟨rfl, rfl, rfl, rfl⟩
        · rw [hg1 j hj]; exact StructEq_refl _
      obtain ⟨go1, go2, go3⟩ := invalidateListGo_spec _ ih n.outputs _ g' h
      refine ⟨?_, ?_, go3.trans (setNode_length ..)⟩
      · intro j hnr
        have hji : j ≠ i := fun he => hnr (he ▸ Relation.ReflTransGen.refl)
        cases hgj : g.get j with
        | none =>
          by_cases hx : ∃ c ∈ n.outputs, OutReach (g.setNode i (clearCache n)) c j
          · rw [go2 j hx, hg1 j hji, hgj]; rfl
          · rw [go1 j (fun c hc hrc => absurd ⟨c, hc, hrc⟩ hx), hg1 j hji]
            exact hgj
        | some nj =>
          have hA : ∀ c ∈ n.outputs, ¬ OutReach (g.setNode i (clearCache n)) c j := by
            intro c hc hrc
            have hrc' : OutReach g c j := (OutReach_congr hse1).mpr hrc
            cases hcl : g.get c with
            | none =>
              rcases Relation.ReflTransGen.cases_head hrc' with rfl | ⟨d, ⟨nc, hnc, -⟩, -⟩
              · rw [hcl] at hgj; exact absurd hgj (by simp)
              · rw [hnc] at hcl; exact absurd hcl (by simp)
            | some nc =>
              exact hnr (Relation.ReflTransGen.head
                ⟨n, hg, hc, by rw [hcl]; rfl⟩ hrc')
          rw [go1 j hA, hg1 j hji]
          exact hgj
      · intro j hr
        by_cases hj : j = i
        · subst hj
          by_cases hx : ∃ c ∈ n.outputs, OutReach (g.setNode j (clearCache n)) c j
          · rw [go2 j hx, hg1i, hg]; rfl
          · rw [go1 j (fun c hc hrc => absurd ⟨c, hc, hrc⟩ hx), hg1i, hg]; rfl
        · rcases Relation.ReflTransGen.cases_head hr with rfl | ⟨c, ⟨n', hn', hc, hcl⟩, hcj⟩
          · exact absurd rfl hj
          · rw [hn'] at hg
            have hnn : n' = n := Option.some.inj hg
            have hcj1 : OutReach (g.setNode i (clearCache n)) c j :=
              (OutReach_congr hse1).mp hcj
            rw [go2 j ⟨c, hnn ▸ hc, hcj1⟩, hg1 j hj]

theorem frames_trans {g g1 g2 : Graph}
    (h1 : ∀ j, ComputeFrameAt (g.get j) (g1.get j))
    (h2 : ∀ j, ComputeFrameAt (g1.get j) (g2.get j)) :
    ∀ j, ComputeFrameAt (g.get j) (g2.get j) :=
  fun j => (h1 j).trans (h2 j)

theorem frame_setNode_step {g g1 : Graph} {i : NodeId} {nOld nNew : Node}
    (hframe : ∀ j, ComputeFrameAt (g.get j) (g1.get j))
    (hlen : g1.nodes.length = g.nodes.length)
    (hg : g.get i = some nOld)
    (hstruct : nOld.inputs = nNew.inputs ∧ nOld.outputs = nNew.outputs ∧
      nOld.name = nNew.name ∧ nOld.node_t = nNew.node_t)
    (hparam : nOld.node_t ≠ .Param)
    (hmono : nOld.cache = none) :
    (∀ j, ComputeFrameAt (g.get j) ((g1.setNode i nNew).get j)) ∧
      (g1.setNode i nNew).nodes.length = g.nodes.length := by
  constructor
  · intro j
    by_cases hj : j = i
    · subst hj
      rw [get_setNode_self (by rw [hlen]; exact get_lt_length hg) nNew, hg]
      exact ⟨hstruct.1, hstruct.2.1, hstruct.2.2.1, hstruct.2.2.2,
        fun hp => absurd hp hparam,
        fun v hv => Option.noConfusion (hmono.symm.trans hv)⟩
    · rw [get_setNode_ne g1 hj nNew]; exact hframe j
  · rw [setNode_length, hlen]

/-- Frame property: `compute` never touches structure, never clears a cache, and never writes a
parameter cache (a parameter is either read from cache or panics first). -/
theorem computeFuel_frame :
    ∀ (fuel : Nat) (g : Graph) (i : NodeId) (g' : Graph) (r : Except String Val),
      computeFuel fuel g i = some (g', r) →
      (∀ j, ComputeFrameAt (g.get j) (g'.get j)) ∧
        g'.nodes.length = g.nodes.length := by
  intro fuel
  induction fuel with
  | zero => intro g i g' r h; exact absurd h (by simp [computeFuel])
  | succ fl ih =>
    intro g i g' r h
    cases hg : g.get i with
    | none => simp only [computeFuel, hg] at h; exact Option.noConfusion h
    | some n =>
      simp only [computeFuel, hg] at h
      obtain ⟨ni, no, nc, nn, nt⟩ := n
      cases nc with
      | some v =>
        dsimp only at h
        obtain ⟨rfl, -⟩ : g' = g ∧ r = .ok v := by
          have h2 := Option.some.inj h
          exact ⟨(congrArg Prod.fst h2).symm, (congrArg Prod.snd h2).symm⟩
        exact ⟨fun j => ComputeFrameAt_refl _, rfl⟩
      | none =>
        cases nt with
        | Param =>
          dsimp only at h
          obtain ⟨rfl, -⟩ : g' = g ∧ r = .error nn := by
            have h2 := Option.some.inj h
            exact ⟨(congrArg Prod.fst h2).symm, (congrArg Prod.snd h2).symm⟩
          exact ⟨fun j => ComputeFrameAt_refl _, rfl⟩
        | UnaryFn f =>
          cases ni with
          | nil => dsimp only at h; exact Option.noConfusion h
          | cons a rest =>
            dsimp only at h
            cases hca : computeFuel fl g a with
            | none => rw [hca] at h; dsimp only at h; exact Option.noConfusion h
            | some p =>
              obtain ⟨g1, r1⟩ := p
              rw [hca] at h
              obtain ⟨hfr1, hlen1⟩ := ih g a g1 r1 hca
              cases r1 with
              | error e =>
                dsimp only at h
                obtain ⟨rfl, -⟩ : g' = g1 ∧ r = .error e := by
                  have h2 := Option.some.inj h
                  exact ⟨(congrArg Prod.fst h2).symm, (congrArg Prod.snd h2).symm⟩
                exact ⟨hfr1, hlen1⟩
              | ok x =>
                dsimp only at h
                obtain ⟨rfl, -⟩ : g' = g1.setNode i
                    ⟨a :: rest, no, some (f x), nn, .UnaryFn f⟩ ∧ r = .ok (f x) := by
                  have h2 := Option.some.inj h
                  exact ⟨(congrArg Prod.fst h2).symm, (congrArg Prod.snd h2).symm⟩
                exact frame_setNode_step hfr1 hlen1 hg
                  ⟨rfl, rfl, rfl, rfl⟩ (by simp) rfl
        | BinaryFn f =>
          cases ni with
          | nil => dsimp only at h; exact Option.noConfusion h
          | cons a rest =>
            cases rest with
            | nil => dsimp only at h; exact Option.noConfusion h
            | cons b rest2 =>
              dsimp only at h
              cases hca : computeFuel fl g a with
              | none => rw [hca] at h; dsimp only at h; exact Option.noConfusion h
              | some p =>
                obtain ⟨g1, r1⟩ := p
                rw [hca] at h
                obtain ⟨hfr1, hlen1⟩ := ih g a g1 r1 hca
                cases r1 with
                | error e =>
                  dsimp only at h
                  obtain ⟨rfl, -⟩ : g' = g1 ∧ r = .error e := by
                    have h2 := Option.some.inj h
                    exact ⟨(congrArg Prod.fst h2).symm, (congrArg Prod.snd h2).symm⟩
                  exact ⟨hfr1, hlen1⟩
                | ok x =>
                  dsimp only at h
                  cases hcb : computeFuel fl g1 b with
                  | none => rw [hcb] at h; dsimp only at h; exact Option.noConfusion h
                  | some q =>
                    obtain ⟨g2, r2⟩ := q
                    rw [hcb] at h
                    obtain ⟨hfr2, hlen2⟩ := ih g1 b g2 r2 hcb
                    cases r2 with
                    | error e =>
                      dsimp only at h
                      obtain ⟨rfl, -⟩ : g' = g2 ∧ r = .error e := by
                        have h2 := Option.some.inj h
                        exact ⟨(congrArg Prod.fst h2).symm, (congrArg Prod.snd h2).symm⟩
                      exact ⟨frames_trans hfr1 hfr2, hlen2.trans hlen1⟩
                    | ok y =>
                      dsimp only at h
                      obtain ⟨rfl, -⟩ : g' = g2.setNode i
                          ⟨a :: b :: rest2, no, some (f x y), nn, .BinaryFn f⟩ ∧
                          r = .ok (f x y) := by
                        have h2 := Option.some.inj h
                        exact ⟨(congrArg Prod.fst h2).symm, (congrArg Prod.snd h2).symm⟩
                      exact frame_setNode_step (frames_trans hfr1 hfr2)
                        (hlen2.trans hlen1) hg ⟨rfl, rfl, rfl, rfl⟩ (by simp) rfl
        | BinaryB2nd f c =>
          cases ni with
          | nil => dsimp only at h; exact Option.noConfusion h
          | cons a rest =>
            dsimp only at h
            cases hca : computeFuel fl g a with
            | none => rw [hca] at h; dsimp only at h; exact Option.noConfusion h
            | some p =>
              obtain ⟨g1, r1⟩ := p
              rw [hca] at h
              obtain ⟨hfr1, hlen1⟩ := ih g a g1 r1 hca
              cases r1 with
              | error e =>
                dsimp only at h
                obtain ⟨rfl, -⟩ : g' = g1 ∧ r = .error e := by
                  have h2 := Option.some.inj h
                  exact ⟨(congrArg Prod.fst h2).symm, (congrArg Prod.snd h2).symm⟩
                exact ⟨hfr1, hlen1⟩
              | ok x =>
                dsimp only at h
                obtain ⟨rfl, -⟩ : g' = g1.setNode i
                    ⟨a :: rest, no, some (f x c), nn, .BinaryB2nd f c⟩ ∧ r = .ok (f x c) := by
                  have h2 := Option.some.inj h
                  exact ⟨(congrArg Prod.fst h2).symm, (congrArg Prod.snd h2).symm⟩
                exact frame_setNode_step hfr1 hlen1 hg
                  ⟨rfl, rfl, rfl, rfl⟩ (by simp) rfl

theorem depOn_le {g : Graph} (hwf : g.Wf) {a j : NodeId} (h : DepOn g a j) : j ≤ a := by
  induction h using Relation.ReflTransGen.head_induction_on with
  | refl => exact Nat.le_refl j
  | head he _ ihc =>
    obtain ⟨n, hn, hmem⟩ := he
    exact Nat.le_of_lt (Nat.lt_of_le_of_lt ihc ((hwf _ n hn).1 _ hmem).1)

theorem depOn_head {g : Graph} {i a j : NodeId} {n : Node} (hg : g.get i = some n)
    (ha : a ∈ n.inputs) (h : DepOn g a j) : DepOn g i j :=
  Relation.ReflTransGen.head ⟨n, hg, ha⟩ h

theorem denote_param_some {g : Graph} {i : NodeId} {n : Node} {v : Val}
    (hg : g.get i = some n) (ht : n.node_t = .Param) (hc : n.cache = some v) :
    g.denote i = some (.ok v) := by
  simp only [Graph.denote, denoteFuel, hg, ht, hc]

theorem denote_param_none {g : Graph} {i : NodeId} {n : Node}
    (hg : g.get i = some n) (ht : n.node_t = .Param) (hc : n.cache = none) :
    g.denote i = some (.error n.name) := by
  simp only [Graph.denote, denoteFuel, hg, ht, hc]

theorem denote_input_eq {g : Graph} (hwf : g.Wf) {i a : NodeId} {n : Node}
    (hg : g.get i = some n) (ha : a ∈ n.inputs) :
    denoteFuel i g a = g.denote a :=
  (denote_eq_denoteFuel hwf ((hwf i n hg).1 a ha).1).symm

theorem denote_unary_ok {g : Graph} (hwf : g.Wf) {i a : NodeId}
    {rest no : List NodeId} {nc : Option Val} {nn : String} {f : Val → Val} {x : Val}
    (hg : g.get i = some ⟨a :: rest, no, nc, nn, .UnaryFn f⟩)
    (ha : g.denote a = some (.ok x)) : g.denote i = some (.ok (f x)) := by
  have h1 := denote_input_eq hwf hg (List.mem_cons_self a rest)
  simp only [Graph.denote, denoteFuel, hg]
  try dsimp only
  rw [h1, ha]

theorem denote_unary_err {g : Graph} (hwf : g.Wf) {i a : NodeId}
    {rest no : List NodeId} {nc : Option Val} {nn : String} {f : Val → Val} {e : String}
    (hg : g.get i = some ⟨a :: rest, no, nc, nn, .UnaryFn f⟩)
    (ha : g.denote a = some (.error e)) : g.denote i = some (.error e) := by
  have h1 := denote_input_eq hwf hg (List.mem_cons_self a rest)
  simp only [Graph.denote, denoteFuel, hg]
  try dsimp only
  rw [h1, ha]

theorem denote_binary_ok {g : Graph} (hwf : g.Wf) {i a b : NodeId}
    {rest no : List NodeId} {nc : Option Val} {nn : String} {f : Val → Val → Val} {x y : Val}
    (hg : g.get i = some ⟨a :: b :: rest, no, nc, nn, .BinaryFn f⟩)
    (ha : g.denote a = some (.ok x)) (hb : g.denote b = some (.ok y)) :
    g.denote i = some (.ok (f x y)) := by
  have h1 := denote_input_eq hwf hg (List.mem_cons_self a (b :: rest))
  have h2 := denote_input_eq hwf hg (List.mem_cons_of_mem a (List.mem_cons_self b rest))
  simp only [Graph.denote, denoteFuel, hg]
  try dsimp only
  rw [h1, ha]
  dsimp only
  rw [h2, hb]

theorem denote_binary_err1 {g : Graph} (hwf : g.Wf) {i a b : NodeId}
    {rest no : List NodeId} {nc : Option Val} {nn : String} {f : Val → Val → Val} {e : String}
    (hg : g.get i = some ⟨a :: b :: rest, no, nc, nn, .BinaryFn f⟩)
    (ha : g.denote a = some (.error e)) : g.denote i = some (.error e) := by
  have h1 := denote_input_eq hwf hg (List.mem_cons_self a (b :: rest))
  simp only [Graph.denote, denoteFuel, hg]
  try dsimp only
  rw [h1, ha]

theorem denote_binary_err2 {g : Graph} (hwf : g.Wf) {i a b : NodeId}
    {rest no : List NodeId} {nc : Option Val} {nn : String} {f : Val → Val → Val}
    {x : Val} {e : String}
    (hg : g.get i = some ⟨a :: b :: rest, no, nc, nn, .BinaryFn f⟩)
    (ha : g.denote a = some (.ok x)) (hb : g.denote b = some (.error e)) :
    g.denote i = some (.error e) := by
  have h1 := denote_input_eq hwf hg (List.mem_cons_self a (b :: rest))
  have h2 := denote_input_eq hwf hg (List.mem_cons_of_mem a (List.mem_cons_self b rest))
  simp only [Graph.denote, denoteFuel, hg]
  try dsimp only
  rw [h1, ha]
  dsimp only
  rw [h2, hb]

theorem denote_b2nd_ok {g : Graph} (hwf : g.Wf) {i a : NodeId}
    {rest no : List NodeId} {nc : Option Val} {nn : String} {f : Val → Val → Val}
    {c x : Val}
    (hg : g.get i = some ⟨a :: rest, no, nc, nn, .BinaryB2nd f c⟩)
    (ha : g.denote a = some (.ok x)) : g.denote i = some (.ok (f x c)) := by
  have h1 := denote_input_eq hwf hg (List.mem_cons_self a rest)
  simp only [Graph.denote, denoteFuel, hg]
  try dsimp only
  rw [h1, ha]

theorem denote_b2nd_err {g : Graph} (hwf : g.Wf) {i a : NodeId}
    {rest no : List NodeId} {nc : Option Val} {nn : String} {f : Val → Val → Val}
    {c : Val} {e : String}
    (hg : g.get i = some ⟨a :: rest, no, nc, nn, .BinaryB2nd f c⟩)
    (ha : g.denote a = some (.error e)) : g.denote i = some (.error e) := by
  have h1 := denote_input_eq hwf hg (List.mem_cons_self a rest)
  simp only [Graph.denote, denoteFuel, hg]
  try dsimp only
  rw [h1, ha]

/-- Writing a fresh correct cache into a non-parameter node preserves the
cache-validity invariant. -/
theorem cacheOk_setNode_step {g2 : Graph} {i : NodeId} {n nNew : Node}
    (hco2 : CacheOk g2) (hgi2 : g2.get i = some n)
    (hstruct : n.inputs = nNew.inputs ∧ n.name = nNew.name ∧ n.node_t = nNew.node_t)
    (hnp : n.node_t ≠ .Param)
    (hval : ∀ v, nNew.cache = some v → g2.denote i = some (.ok v)) :
    CacheOk (g2.setNode i nNew) := by
  have hlt : i < g2.nodes.length := get_lt_length hgi2
  have hde : ∀ k, DenoteEq (g2.get k) ((g2.setNode i nNew).get k) := by
    intro k
    by_cases hk : k = i
    · subst hk
      rw [hgi2, get_setNode_self hlt]
      exact ⟨hstruct.1, hstruct.2.1, hstruct.2.2, fun hp => absurd hp hnp⟩
    · rw [get_setNode_ne _ hk]; exact DenoteEq_refl _
  intro j m w hm hw
  by_cases hj : j = i
  · subst hj
    rw [get_setNode_self hlt] at hm
    obtain rfl : nNew = m := Option.some.inj hm
    rw [← denote_congr_all hde j]
    exact hval w hw
  · rw [get_setNode_ne _ hj] at hm
    rw [← denote_congr_all hde j]
    exact hco2 j m w hm hw

/-- Functional correctness of `Node::compute` on invariant-satisfying heaps:
the returned result (value or unset-parameter failure) is exactly the node's
denotation in the pre-state, cache validity is preserved, only cells in the
operand closure are touched, and on success the node's own cache now holds the
returned value. -/
theorem computeFuel_correct :
    ∀ (fuel : Nat) (g : Graph) (i : NodeId) (g' : Graph) (r : Except String Val),
      g.Wf → CacheOk g → computeFuel fuel g i = some (g', r) →
      g.denote i = some r ∧ CacheOk g' ∧
      (∀ j, ¬ DepOn g i j → g'.get j = g.get j) ∧
      (∀ v, r = Except.ok v →
        g'.get i = (g.get i).map (fun m => { m with cache := some v })) := by
  intro fuel
  induction fuel with
  | zero => intro g i g' r _ _ h; exact absurd h (by simp [computeFuel])
  | succ fl ih =>
    intro g i g' r hwf hco h
    cases hg : g.get i with
    | none => simp only [computeFuel, hg] at h; exact Option.noConfusion h
    | some n =>
      simp only [computeFuel, hg] at h
      obtain ⟨ni, no, nc, nn, nt⟩ := n
      cases nc with
      | some v =>
        dsimp only at h
        rw [Option.some.injEq, Prod.mk.injEq] at h
        obtain ⟨rfl, rfl⟩ := h
        refine ⟨hco i _ v hg rfl, hco, fun j _ => rfl, ?_⟩
        intro w hw
        obtain rfl : v = w := by injection hw
        rw [hg]
        rfl
      | none =>
        cases nt with
        | Param =>
          dsimp only at h
          rw [Option.some.injEq, Prod.mk.injEq] at h
          obtain ⟨rfl, rfl⟩ := h
          exact ⟨denote_param_none hg rfl rfl, hco, fun j _ => rfl,
            fun v hv => nomatch hv⟩
        | UnaryFn f =>
          cases ni with
          | nil => dsimp only at h; exact Option.noConfusion h
          | cons a rest =>
            dsimp only at h
            cases hca : computeFuel fl g a with
            | none => rw [hca] at h; dsimp only at h; exact Option.noConfusion h
            | some p =>
              obtain ⟨g1, r1⟩ := p
              rw [hca] at h
              obtain ⟨hd1, hco1, hunt1, -⟩ := ih g a g1 r1 hwf hco hca
              obtain ⟨hfr1, hlen1⟩ := computeFuel_frame fl g a g1 r1 hca
              have hse1 : ∀ k, StructEq (g.get k) (g1.get k) :=
                fun k => ComputeFrameAt_structEq (hfr1 k)
              have hde1 : ∀ k, DenoteEq (g.get k) (g1.get k) :=
                fun k => (hfr1 k).denoteEq
              have hai : a < i := ((hwf i _ hg).1 a (List.mem_cons_self a rest)).1
              cases r1 with
              | error e =>
                dsimp only at h
                rw [Option.some.injEq, Prod.mk.injEq] at h
                obtain ⟨rfl, rfl⟩ := h
                refine ⟨denote_unary_err hwf hg hd1, hco1, ?_, fun v hv => nomatch hv⟩
                intro j hj
                exact hunt1 j
                  (fun hd => hj (depOn_head hg (List.mem_cons_self a rest) hd))
              | ok x =>
                dsimp only at h
                rw [Option.some.injEq, Prod.mk.injEq] at h
                obtain ⟨rfl, rfl⟩ := h
                have hgi1 : g1.get i = g.get i :=
                  hunt1 i (fun hd => absurd (depOn_le hwf hd) (not_le.mpr hai))
                have hd_i : g.denote i = some (.ok (f x)) := denote_unary_ok hwf hg hd1
                have hden1 : g1.denote i = g.denote i := (denote_congr_all hde1 i).symm
                refine ⟨hd_i, ?_, ?_, ?_⟩
                · refine cacheOk_setNode_step hco1 (hgi1.trans hg)
                    ⟨rfl, rfl, rfl⟩ (by simp) ?_
                  intro v hv
                  obtain rfl : f x = v := Option.some.inj hv
                  rw [hden1]
                  exact hd_i
                · intro j hj
                  have hji : j ≠ i := fun he => hj (he ▸ Relation.ReflTransGen.refl)
                  rw [get_setNode_ne g1 hji]
                  exact hunt1 j
                    (fun hd => hj (depOn_head hg (List.mem_cons_self a rest) hd))
                · intro v hv
                  obtain rfl : f x = v := by injection hv
                  have hlt1 : i < g1.nodes.length := by
                    rw [hlen1]; exact get_lt_length hg
                  rw [get_setNode_self hlt1 _]
                  rfl
        | BinaryFn f =>
          cases ni with
          | nil => dsimp only at h; exact Option.noConfusion h
          | cons a rest =>
            cases rest with
            | nil => dsimp only at h; exact Option.noConfusion h
            | cons b rest2 =>
              dsimp only at h
              cases hca : computeFuel fl g a with
              | none => rw [hca] at h; dsimp only at h; exact Option.noConfusion h
              | some p =>
                obtain ⟨g1, r1⟩ := p
                rw [hca] at h
                obtain ⟨hd1, hco1, hunt1, -⟩ := ih g a g1 r1 hwf hco hca
                obtain ⟨hfr1, hlen1⟩ := computeFuel_frame fl g a g1 r1 hca
                have hse1 : ∀ k, StructEq (g.get k) (g1.get k) :=
                  fun k => ComputeFrameAt_structEq (hfr1 k)
                have hde1 : ∀ k, DenoteEq (g.get k) (g1.get k) :=
                  fun k => (hfr1 k).denoteEq
                have hwf1 : g1.Wf := Wf_congr hse1 hwf
                have hma : a ∈ a :: b :: rest2 := List.mem_cons_self a (b :: rest2)
                have hmb : b ∈ a :: b :: rest2 :=
                  List.mem_cons_of_mem a (List.mem_cons_self b rest2)
                have hai : a < i := ((hwf i _ hg).1 a hma).1
                have hbi : b < i := ((hwf i _ hg).1 b hmb).1
                cases r1 with
                | error e =>
                  dsimp only at h
                  rw [Option.some.injEq, Prod.mk.injEq] at h
                  obtain ⟨rfl, rfl⟩ := h
                  refine ⟨denote_binary_err1 hwf hg hd1, hco1, ?_, fun v hv => nomatch hv⟩
                  intro j hj
                  exact hunt1 j (fun hd => hj (depOn_head hg hma hd))
                | ok x =>
                  dsimp only at h
                  cases hcb : computeFuel fl g1 b with
                  | none => rw [hcb] at h; dsimp only at h; exact Option.noConfusion h
                  | some q =>
                    obtain ⟨g2, r2⟩ := q
                    rw [hcb] at h
                    obtain ⟨hd2, hco2, hunt2, -⟩ := ih g1 b g2 r2 hwf1 hco1 hcb
                    obtain ⟨hfr2, hlen2⟩ := computeFuel_frame fl g1 b g2 r2 hcb
                    have hfr12 : ∀ k, ComputeFrameAt (g.get k) (g2.get k) :=
                      frames_trans hfr1 hfr2
                    have hde12 : ∀ k, DenoteEq (g.get k) (g2.get k) :=
                      fun k => (hfr12 k).denoteEq
                    have hd2g : g.denote b = some r2 := by
                      rw [denote_congr_all hde1 b]; exact hd2
                    cases r2 with
                    | error e =>
                      dsimp only at h
                      rw [Option.some.injEq, Prod.mk.injEq] at h
                      obtain ⟨rfl, rfl⟩ := h
                      refine ⟨denote_binary_err2 hwf hg hd1 hd2g, hco2, ?_,
                        fun v hv => nomatch hv⟩
                      intro j hj
                      have e2 : g2.get j = g1.get j := hunt2 j
                        (fun hd => hj (depOn_head hg hmb ((DepOn_congr hse1).mpr hd)))
                      rw [e2]
                      exact hunt1 j (fun hd => hj (depOn_head hg hma hd))
                    | ok y =>
                      dsimp only at h
                      rw [Option.some.injEq, Prod.mk.injEq] at h
                      obtain ⟨rfl, rfl⟩ := h
                      have hgi2 : g2.get i = g.get i := by
                        have e2 : g2.get i = g1.get i := hunt2 i (fun hd =>
                          absurd (depOn_le hwf ((DepOn_congr hse1).mpr hd)) (not_le.mpr hbi))
                        rw [e2]
                        exact hunt1 i (fun hd => absurd (depOn_le hwf hd) (not_le.mpr hai))
                      have hd_i : g.denote i = some (.ok (f x y)) :=
                        denote_binary_ok hwf hg hd1 hd2g
                      refine ⟨hd_i, ?_, ?_, ?_⟩
                      · refine cacheOk_setNode_step hco2 (hgi2.trans hg)
                          ⟨rfl, rfl, rfl⟩ (by simp) ?_
                        intro v hv
                        obtain rfl : f x y = v := Option.some.inj hv
                        rw [← denote_congr_all hde12 i]
                        exact hd_i
                      · intro j hj
                        have hji : j ≠ i := fun he => hj (he ▸ Relation.ReflTransGen.refl)
                        rw [get_setNode_ne g2 hji]
                        have e2 : g2.get j = g1.get j := hunt2 j
                          (fun hd => hj (depOn_head hg hmb ((DepOn_congr hse1).mpr hd)))
                        rw [e2]
                        exact hunt1 j (fun hd => hj (depOn_head hg hma hd))
                      · intro v hv
                        obtain rfl : f x y = v := by injection hv
                        have hlt2 : i < g2.nodes.length := by
                          rw [hlen2, hlen1]; exact get_lt_length hg
                        rw [get_setNode_self hlt2 _]
                        rfl
        | BinaryB2nd f c =>
          cases ni with
          | nil => dsimp only at h; exact Option.noConfusion h
          | cons a rest =>
            dsimp only at h
            cases hca : computeFuel fl g a with
            | none => rw [hca] at h; dsimp only at h; exact Option.noConfusion h
            | some p =>
              obtain ⟨g1, r1⟩ := p
              rw [hca] at h
              obtain ⟨hd1, hco1, hunt1, -⟩ := ih g a g1 r1 hwf hco hca
              obtain ⟨hfr1, hlen1⟩ := computeFuel_frame fl g a g1 r1 hca
              have hde1 : ∀ k, DenoteEq (g.get k) (g1.get k) :=
                fun k => (hfr1 k).denoteEq
              have hai : a < i := ((hwf i _ hg).1 a (List.mem_cons_self a rest)).1
              cases r1 with
              | error e =>
                dsimp only at h
                rw [Option.some.injEq, Prod.mk.injEq] at h
                obtain ⟨rfl, rfl⟩ := h
                refine ⟨denote_b2nd_err hwf hg hd1, hco1, ?_, fun v hv => nomatch hv⟩
                intro j hj
                exact hunt1 j
                  (fun hd => hj (depOn_head hg (List.mem_cons_self a rest) hd))
              | ok x =>
                dsimp only at h
                rw [Option.some.injEq, Prod.mk.injEq] at h
                obtain ⟨rfl, rfl⟩ := h
                have hgi1 : g1.get i = g.get i :=
                  hunt1 i (fun hd => absurd (depOn_le hwf hd) (not_le.mpr hai))
                have hd_i : g.denote i = some (.ok (f x c)) := denote_b2nd_ok hwf hg hd1
                refine ⟨hd_i, ?_, ?_, ?_⟩
                · refine cacheOk_setNode_step hco1 (hgi1.trans hg)
                    ⟨rfl, rfl, rfl⟩ (by simp) ?_
                  intro v hv
                  obtain rfl : f x c = v := Option.some.inj hv
                  rw [← denote_congr_all hde1 i]
                  exact hd_i
                · intro j hj
                  have hji : j ≠ i := fun he => hj (he ▸ Relation.ReflTransGen.refl)
                  rw [get_setNode_ne g1 hji]
                  exact hunt1 j
                    (fun hd => hj (depOn_head hg (List.mem_cons_self a rest) hd))
                · intro v hv
                  obtain rfl : f x c = v := by injection hv
                  have hlt1 : i < g1.nodes.length := by
                    rw [hlen1]; exact get_lt_length hg
                  rw [get_setNode_self hlt1 _]
                  rfl

/-- On a well-formed graph, fuel above the node id never runs out in
`compute`: operand ids strictly decrease. -/
theorem computeFuel_isSome :
    ∀ (fuel : Nat) (g : Graph) (i : NodeId), g.Wf → (g.get i).isSome →
      i < fuel → (computeFuel fuel g i).isSome := by
  intro fuel
  induction fuel with
  | zero => intro g i _ _ h; exact absurd h (Nat.not_lt_zero i)
  | succ fl ih =>
    intro g i hwf hlive hf
    obtain ⟨n, hg⟩ := Option.isSome_iff_exists.mp hlive
    have harity := (hwf i n hg).2.2
    have hin := (hwf i n hg).1
    simp only [computeFuel, hg]
    obtain ⟨ni, no, nc, nn, nt⟩ := n
    simp only at harity hin
    cases nc with
    | some v => simp
    | none =>
      cases nt with
      | Param => simp
      | UnaryFn f =>
        cases ni with
        | nil => simp [ArityOk] at harity
        | cons a rest =>
          obtain ⟨ha1, ha2⟩ := hin a (List.mem_cons_self a rest)
          have haf : a < fl := Nat.lt_of_lt_of_le ha1 (Nat.lt_succ_iff.mp hf)
          obtain ⟨⟨g1, r1⟩, hca⟩ :=
            Option.isSome_iff_exists.mp (ih g a hwf ha2 haf)
          dsimp only
          rw [hca]
          cases r1 <;> simp
      | BinaryFn f =>
        cases ni with
        | nil => simp [ArityOk] at harity
        | cons a rest =>
          cases rest with
          | nil => simp [ArityOk] at harity
          | cons b rest2 =>
            obtain ⟨ha1, ha2⟩ := hin a (List.mem_cons_self a (b :: rest2))
            obtain ⟨hb1, hb2⟩ :=
              hin b (List.mem_cons_of_mem a (List.mem_cons_self b rest2))
            have haf : a < fl := Nat.lt_of_lt_of_le ha1 (Nat.lt_succ_iff.mp hf)
            have hbf : b < fl := Nat.lt_of_lt_of_le hb1 (Nat.lt_succ_iff.mp hf)
            obtain ⟨⟨g1, r1⟩, hca⟩ :=
              Option.isSome_iff_exists.mp (ih g a hwf ha2 haf)
            dsimp only
            rw [hca]
            cases r1 with
            | error e => simp
            | ok x =>
              have hfr1 := (computeFuel_frame fl g a g1 _ hca).1
              have hwf1 : g1.Wf := Wf_congr (fun k => ComputeFrameAt_structEq (hfr1 k)) hwf
              have hb2' : (g1.get b).isSome := (StructEq_isSome (ComputeFrameAt_structEq (hfr1 b))).mp hb2
              obtain ⟨⟨g2, r2⟩, hcb⟩ :=
                Option.isSome_iff_exists.mp (ih g1 b hwf1 hb2' hbf)
              dsimp only
              rw [hcb]
              cases r2 <;> simp
      | BinaryB2nd f c =>
        cases ni with
        | nil => simp [ArityOk] at harity
        | cons a rest =>
          obtain ⟨ha1, ha2⟩ := hin a (List.mem_cons_self a rest)
          have haf : a < fl := Nat.lt_of_lt_of_le ha1 (Nat.lt_succ_iff.mp hf)
          obtain ⟨⟨g1, r1⟩, hca⟩ :=
            Option.isSome_iff_exists.mp (ih g a hwf ha2 haf)
          dsimp only
          rw [hca]
          cases r1 <;> simp

/-- On a well-formed graph, fuel covering the ids above `i` never runs out in
`invalidate`: dependent ids strictly increase. -/
theorem invalidateFuel_isSome :
    ∀ (fuel : Nat) (g : Graph) (i : NodeId), g.Wf → g.nodes.length ≤ fuel + i →
      (invalidateFuel (fuel + 1) g i).isSome := by
  intro fuel
  induction fuel with
  | zero =>
    intro g i hwf hb
    cases hg : g.get i with
    | none => simp [invalidateFuel, hg]
    | some n =>
      rw [Nat.zero_add] at hb
      exact absurd (Nat.lt_of_lt_of_le (get_lt_length hg) hb) (Nat.lt_irrefl i)
  | succ fl ih =>
    intro g i hwf hb
    cases hg : g.get i with
    | none => simp [invalidateFuel, hg]
    | some n =>
      simp only [invalidateFuel, hg]
      have houts := (hwf i n hg).2.1
      have hlt := get_lt_length hg
      have hgo : ∀ (L : List NodeId) (h : Graph), h.Wf →
          h.nodes.length = g.nodes.length → (∀ j, j ∈ L → i < j) →
          (invalidateListGo (invalidateFuel (fl + 1)) h L).isSome := by
        intro L
        induction L with
        | nil => intro h _ _ _; simp [invalidateListGo]
        | cons a L2 ihL =>
          intro h hwfh hlen hmem
          have hia : i < a := hmem a (List.mem_cons_self a L2)
          have hba : h.nodes.length ≤ fl + a := by
            calc h.nodes.length = g.nodes.length := hlen
              _ ≤ fl + 1 + i := hb
              _ = fl + (i + 1) := by rw [Nat.add_assoc, Nat.add_comm 1 i]
              _ ≤ fl + a := Nat.add_le_add_left (Nat.succ_le_of_lt hia) fl
          obtain ⟨h1, hh1⟩ :=
            Option.isSome_iff_exists.mp (ih h a hwfh hba)
          have hsp := invalidateFuel_spec (fl + 1) h a h1 hh1
          simp only [invalidateListGo]
          rw [hh1]
          exact ihL h1 (Wf_congr (InvSpec_structEq hsp) hwfh) (hsp.2.2.trans hlen)
            (fun j hj => hmem j (List.mem_cons_of_mem a hj))
      have hwf1 : (g.setNode i (clearCache n)).Wf := by
        refine Wf_congr ?_ hwf
        intro k
        by_cases hk : k = i
        · subst hk
          rw [hg, get_setNode_self hlt]
          exact ⟨rfl, rfl, rfl, rfl⟩
        · rw [get_setNode_ne g hk]
          exact StructEq_refl _
      exact hgo n.outputs (g.setNode i (clearCache n)) hwf1 (setNode_length ..) houts

/-- Fuel bound: `set` never runs out of fuel `size + 1` on a well-formed graph. -/
theorem setFuel_isSome {g : Graph} (hwf : g.Wf) {i : NodeId}
    (hlive : (g.get i).isSome) (v : Val) :
    (setFuel (g.nodes.length + 1) g i v).isSome := by
  obtain ⟨n, hg⟩ := Option.isSome_iff_exists.mp hlive
  have hb : g.nodes.length ≤ g.nodes.length + i := Nat.le_add_right ..
  obtain ⟨g1, hg1⟩ :=
    Option.isSome_iff_exists.mp (invalidateFuel_isSome g.nodes.length g i hwf hb)
  simp only [setFuel, hg]
  obtain ⟨ni, no, nc, nn, nt⟩ := n
  cases nt
  all_goals simp [hg1]

theorem registerOutputs_length :
    ∀ (L : List NodeId) (g : Graph) (i : NodeId),
      (registerOutputs g L i).nodes.length = g.nodes.length := by
  intro L
  induction L with
  | nil => intro g i; rfl
  | cons a L2 ih =>
    intro g i
    simp only [registerOutputs]
    cases hga : g.get a with
    | none => rw [ih]
    | some m => rw [ih, setNode_length]

/-- Effect of `registerOutputs`: it only appends copies of the new id to `outputs` lists. -/
theorem registerOutputs_get :
    ∀ (L : List NodeId) (g : Graph) (i j : NodeId),
      ∃ k, (registerOutputs g L i).get j =
        (g.get j).map (fun m => { m with outputs := m.outputs ++ List.replicate k i }) := by
  intro L
  induction L with
  | nil =>
    intro g i j
    refine ⟨0, ?_⟩
    simp only [registerOutputs]
    cases hj : g.get j with
    | none => rfl
    | some m => simp
  | cons a L2 ih =>
    intro g i j
    by_cases haj : a = j
    · subst haj
      cases hga : g.get a with
      | none =>
        obtain ⟨k, hk⟩ := ih g i a
        rw [hga] at hk
        exact ⟨k, by simp only [registerOutputs, hga]; exact hk⟩
      | some m =>
        obtain ⟨k, hk⟩ := ih (g.setNode a { m with outputs := m.outputs ++ [i] }) i a
        refine ⟨k + 1, ?_⟩
        simp only [registerOutputs, hga]
        rw [hk, get_setNode_self (get_lt_length hga)]
        simp [List.append_assoc, List.replicate_succ]
    · cases hga : g.get a with
      | none =>
        obtain ⟨k, hk⟩ := ih g i j
        exact ⟨k, by simp only [registerOutputs, hga]; exact hk⟩
      | some m =>
        obtain ⟨k, hk⟩ := ih (g.setNode a { m with outputs := m.outputs ++ [i] }) i j
        refine ⟨k, ?_⟩
        simp only [registerOutputs, hga]
        rw [hk, get_setNode_ne _ (fun he => haj he.symm)]

theorem registerOutputs_not_mem :
    ∀ (L : List NodeId) (g : Graph) (i j : NodeId), j ∉ L →
      (registerOutputs g L i).get j = g.get j := by
  intro L
  induction L with
  | nil => intro g i j _; rfl
  | cons a L2 ih =>
    intro g i j hj
    have hne : a ≠ j := fun he => hj (he ▸ List.mem_cons_self a L2)
    have hj2 : j ∉ L2 := fun hm => hj (List.mem_cons_of_mem a hm)
    simp only [registerOutputs]
    cases hga : g.get a with
    | none => exact ih g i j hj2
    | some m =>
      rw [ih _ i j hj2, get_setNode_ne _ (fun he => hne he.symm)]

/-- Every operand occurrence really records the new node as a dependent. -/
theorem registerOutputs_mem :
    ∀ (L : List NodeId) (g : Graph) (i a : NodeId), a ∈ L →
      ∀ ma, g.get a = some ma →
      ∃ m2, (registerOutputs g L i).get a = some m2 ∧ i ∈ m2.outputs := by
  intro L
  induction L with
  | nil => intro g i a ha; exact absurd ha (List.not_mem_nil a)
  | cons b L2 ih =>
    intro g i a ha ma hma
    by_cases hba : b = a
    · subst hba
      simp only [registerOutputs, hma]
      obtain ⟨k, hk⟩ :=
        registerOutputs_get L2 (g.setNode b { ma with outputs := ma.outputs ++ [i] }) i b
      rw [get_setNode_self (get_lt_length hma)] at hk
      refine ⟨_, hk, ?_⟩
      simp
    · rcases List.mem_cons.mp ha with rfl | ha2
      · exact absurd rfl hba
      · simp only [registerOutputs]
        cases hgb : g.get b with
        | none => exact ih g i a ha2 ma hma
        | some mb =>
          exact ih _ i a ha2 ma
            (by rw [get_setNode_ne _ (fun he => hba he.symm)]; exact hma)

theorem Node_new_length (g : Graph) (name : String) (t : NodeType)
    (inputs : List NodeId) :
    (Node.new g name t inputs).1.nodes.length = g.nodes.length + 1 := by
  simp only [Node.new, registerOutputs_length]
  simp

theorem get_append_new (g : Graph) (x : Option Node) {j : NodeId}
    (hj : j ≠ g.nodes.length) :
    (Graph.mk (g.nodes ++ [x])).get j = g.get j := by
  rcases Nat.lt_or_ge j g.nodes.length with h | h
  · rw [Graph.get, Graph.get, List.getElem?_append_left h]
  · have h2 : g.nodes.length < j := Nat.lt_of_le_of_ne h (fun he => hj he.symm)
    rw [Graph.get, Graph.get, List.getElem?_eq_none (by simpa using h2),
      List.getElem?_eq_none h]

theorem Node_new_get_new (g : Graph) (name : String) (t : NodeType)
    (inputs : List NodeId) (hin : ∀ j ∈ inputs, (g.get j).isSome) :
    (Node.new g name t inputs).1.get g.nodes.length =
      some ⟨inputs, [], none, name, t⟩ := by
  simp only [Node.new]
  rw [registerOutputs_not_mem]
  · rw [Graph.get]
    simp [List.getElem?_concat_length]
  · intro hmem
    have := get_lt_length (Option.isSome_iff_exists.mp (hin _ hmem)).choose_spec
    exact Nat.lt_irrefl _ this

theorem Node_new_get_old (g : Graph) (name : String) (t : NodeType)
    (inputs : List NodeId) {j : NodeId} (hj : j ≠ g.nodes.length) :
    ∃ k, (Node.new g name t inputs).1.get j = (g.get j).map
      (fun m => { m with outputs := m.outputs ++ List.replicate k g.nodes.length }) := by
  simp only [Node.new]
  obtain ⟨k, hk⟩ := registerOutputs_get inputs
    (Graph.mk (g.nodes ++ [some ⟨inputs, [], none, name, t⟩])) g.nodes.length j
  rw [get_append_new g _ hj] at hk
  exact ⟨k, hk⟩

theorem Node_new_mem (g : Graph) (name : String) (t : NodeType)
    (inputs : List NodeId) {a : NodeId} (ha : a ∈ inputs) {ma : Node}
    (hma : g.get a = some ma) :
    ∃ m2, (Node.new g name t inputs).1.get a = some m2 ∧
      g.nodes.length ∈ m2.outputs := by
  simp only [Node.new]
  have hane : a ≠ g.nodes.length :=
    fun he => Nat.lt_irrefl _ (he ▸ get_lt_length hma)
  exact registerOutputs_mem inputs _ g.nodes.length a ha ma
    (by rw [get_append_new g _ hane]; exact hma)

theorem depOn_live {g : Graph} (hwf : g.Wf) {j k : NodeId} (h : DepOn g j k)
    (hj : (g.get j).isSome) : (g.get k).isSome := by
  induction h using Relation.ReflTransGen.head_induction_on with
  | refl => exact hj
  | head he hrest ihc =>
    obtain ⟨n, hn, hmem⟩ := he
    exact ihc ((hwf _ n hn).1 _ hmem).2

theorem depOn_target {g : Graph} {j k : NodeId} (h : DepOn g j k) (hne : k ≠ j) :
    ∃ c m, g.get c = some m ∧ k ∈ m.inputs := by
  rcases Relation.ReflTransGen.cases_tail h with he | ⟨c, -, hc⟩
  · exact absurd he hne
  · obtain ⟨m, hm, hmem⟩ := hc
    exact ⟨c, m, hm, hmem⟩

/-- Because `dependents` inverts `operands`, a node's operand closure is inside the
invalidation cone of each of its members. -/
theorem depOn_outReach {g : Graph} (hwf : g.Wf) (hie : InvEdge g) {j k : NodeId}
    (h : DepOn g j k) (hj : (g.get j).isSome) : OutReach g k j := by
  induction h using Relation.ReflTransGen.head_induction_on with
  | refl => exact Relation.ReflTransGen.refl
  | head he hrest ihc =>
    obtain ⟨n, hn, hmem⟩ := he
    have ha : (g.get _).isSome := ((hwf _ n hn).1 _ hmem).2
    obtain ⟨na, hna, hout⟩ := hie _ n hn _ hmem
    exact (ihc ha).tail ⟨na, hna, hout, by rw [hn]; rfl⟩

theorem outReach_target {g : Graph} (hnp : NoParamOutput g) {p k : NodeId}
    (h : OutReach g p k) (hne : k ≠ p) :
    ∀ nk, g.get k = some nk → nk.node_t ≠ .Param := by
  rcases Relation.ReflTransGen.cases_tail h with he | ⟨c, -, hc⟩
  · exact absurd he hne
  · obtain ⟨nc, hnc, hmem, -⟩ := hc
    exact hnp c nc hnc k hmem

/-- Calling `set` on a non-parameter node returns the heap unchanged (the `if let
Param` guard of `Node::set` fails silently). -/
theorem setFuel_nonparam {fuel : Nat} {g : Graph} {i : NodeId} {v : Val} {n : Node}
    (hp : g.get i = some n) (ht : n.node_t ≠ .Param) :
    setFuel fuel g i v = some g := by
  rw [setFuel, hp]
  obtain ⟨ni, no, nc, nn, nt⟩ := n
  cases nt with
  | Param => exact absurd rfl ht
  | UnaryFn f => rfl
  | BinaryFn f => rfl
  | BinaryB2nd f c => rfl

/-- The per-call specification of `Node::set` on a parameter: invalidate the
downstream cone, then store the value. -/
theorem setFuel_param_spec {fuel : Nat} {g : Graph} {p : NodeId} {v : Val}
    {g' : Graph} {n : Node} (hp : g.get p = some n) (ht : n.node_t = .Param)
    (hset : setFuel fuel g p v = some g') :
    g'.get p = some { n with cache := some v } ∧
    (∀ q, q ≠ p → OutReach g p q → g'.get q = (g.get q).map clearCache) ∧
    (∀ q, ¬ OutReach g p q → g'.get q = g.get q) ∧
    g'.nodes.length = g.nodes.length := by
  obtain ⟨ni, no, nc, nn, nt⟩ := n
  simp only at ht
  subst ht
  rw [setFuel, hp] at hset
  dsimp only at hset
  cases hiv : invalidateFuel fuel g p with
  | none => rw [hiv] at hset; exact absurd hset (by simp)
  | some g1 =>
    rw [hiv] at hset
    obtain rfl : g1.setNode p
        { inputs := ni, outputs := no, cache := some v, name := nn,
          node_t := NodeType.Param } = g' := Option.some.inj hset
    obtain ⟨s1, s2, s3⟩ := invalidateFuel_spec fuel g p g1 hiv
    have hplt : p < g1.nodes.length := by rw [s3]; exact get_lt_length hp
    refine ⟨?_, ?_, ?_, ?_⟩
    · rw [get_setNode_self hplt]
    · intro q hq hr
      rw [get_setNode_ne g1 hq]
      exact s2 q hr
    · intro q hnr
      have hq : q ≠ p := fun he => hnr (he ▸ Relation.ReflTransGen.refl)
      rw [get_setNode_ne g1 hq]
      exact s1 q hnr
    · rw [setNode_length]; exact s3

theorem Inv_empty : Inv (Graph.mk []) := by
  have hnone : ∀ i, (Graph.mk []).get i = none := fun i => rfl
  refine ⟨?_, ?_, ?_, ?_, ?_⟩
  · intro i n h; rw [hnone i] at h; exact Option.noConfusion h
  · intro i n h; rw [hnone i] at h; exact Option.noConfusion h
  · intro i n h; rw [hnone i] at h; exact Option.noConfusion h
  · intro i n h; rw [hnone i] at h; exact Option.noConfusion h
  · intro i n v h; rw [hnone i] at h; exact Option.noConfusion h

theorem Inv_compute {fuel : Nat} {g g' : Graph} {i : NodeId} {r : Except String Val}
    (hinv : Inv g) (hc : computeFuel fuel g i = some (g', r)) : Inv g' := by
  obtain ⟨hwf, hie, hnp, hob, hco⟩ := hinv
  obtain ⟨hfr, hlen⟩ := computeFuel_frame fuel g i g' r hc
  have hse : ∀ k, StructEq (g.get k) (g'.get k) := fun k => ComputeFrameAt_structEq (hfr k)
  exact ⟨Wf_congr hse hwf, InvEdge_congr hse hie, NoParamOutput_congr hse hnp,
    OutBounded_congr hse hlen hob,
    (computeFuel_correct fuel g i g' r hwf hco hc).2.1⟩

theorem Inv_set {fuel : Nat} {g g' : Graph} {i : NodeId} {v : Val}
    (hinv : Inv g) (hset : setFuel fuel g i v = some g') : Inv g' := by
  obtain ⟨hwf, hie, hnp, hob, hco⟩ := hinv
  cases hp : g.get i with
  | none => rw [setFuel, hp] at hset; exact absurd hset (by simp)
  | some n =>
    by_cases ht : n.node_t = .Param
    · obtain ⟨s0, s2, s1, s3⟩ := setFuel_param_spec hp ht hset
      have hse : ∀ q, StructEq (g.get q) (g'.get q) := by
        intro q
        by_cases hq : q = i
        · subst hq; rw [hp, s0]; exact ⟨rfl, rfl, rfl, rfl⟩
        · by_cases hr : OutReach g i q
          · rw [s2 q hq hr]; exact StructEq.clear _
          · rw [s1 q hr]; exact StructEq_refl _
      refine ⟨Wf_congr hse hwf, InvEdge_congr hse hie, NoParamOutput_congr hse hnp,
        OutBounded_congr hse s3 hob, ?_⟩
      intro j m w hm hw
      by_cases hj : j = i
      · subst hj
        rw [s0] at hm
        obtain rfl : ({ n with cache := some v } : Node) = m := Option.some.inj hm
        obtain rfl : v = w := Option.some.inj hw
        exact denote_param_some s0 ht rfl
      · have hnr : ¬ OutReach g i j := by
          intro hr
          have hcl := s2 j hj hr
          rw [hm] at hcl
          cases hgj : g.get j with
          | none => rw [hgj] at hcl; exact absurd hcl (by simp)
          | some mj =>
            rw [hgj] at hcl
            obtain rfl : m = clearCache mj := Option.some.inj hcl
            exact absurd hw (by simp [clearCache])
        have hgj : g.get j = some m := by rw [← s1 j hnr]; exact hm
        have hjlive : (g.get j).isSome := by rw [hgj]; rfl
        have hX : ∀ x, DepOn g j x → DenoteEq (g.get x) (g'.get x) := by
          intro x hx
          have hxi : x ≠ i := by
            intro he
            subst he
            exact hnr (depOn_outReach hwf hie hx hjlive)
          by_cases hr : OutReach g i x
          · have hcl := s2 x hxi hr
            cases hgx : g.get x with
            | none => rw [hgx] at hcl; rw [hcl]; trivial
            | some nx =>
              rw [hgx] at hcl
              rw [hcl]
              exact ⟨rfl, rfl, rfl,
                fun hpp => absurd hpp (outReach_target hnp hr hxi nx hgx)⟩
          · rw [s1 x hr]; exact DenoteEq_refl _
        have hd := hco j m w hgj hw
        show denoteFuel (j + 1) g' j = some (Except.ok w)
        rw [← denoteFuel_congr (j + 1) hX]
        exact hd
    · rw [setFuel_nonparam hp ht] at hset
      obtain rfl : g = g' := Option.some.inj hset
      exact ⟨hwf, hie, hnp, hob, hco⟩

theorem Inv_drop {g : Graph} {i : NodeId} (hinv : Inv g)
    (hni : ∀ j n, g.get j = some n → i ∉ n.inputs) : Inv (g.dropNode i) := by
  obtain ⟨hwf, hie, hnp, hob, hco⟩ := hinv
  have hget : ∀ j, j ≠ i → (g.dropNode i).get j = g.get j :=
    fun j hj => get_dropNode_ne g hj
  have hlive : ∀ j n, (g.dropNode i).get j = some n → j ≠ i ∧ g.get j = some n := by
    intro j n h
    by_cases hj : j = i
    · subst hj; rw [get_dropNode_self] at h; exact absurd h (by simp)
    · exact ⟨hj, by rw [← hget j hj]; exact h⟩
  refine ⟨?_, ?_, ?_, ?_, ?_⟩
  · intro j m hm
    obtain ⟨hj, hgj⟩ := hlive j m hm
    obtain ⟨w1, w2, w3⟩ := hwf j m hgj
    refine ⟨?_, w2, w3⟩
    intro a ha
    obtain ⟨ha1, ha2⟩ := w1 a ha
    have hai : a ≠ i := fun he => hni j m hgj (he ▸ ha)
    rw [hget a hai]
    exact ⟨ha1, ha2⟩
  · intro j m hm a ha
    obtain ⟨hj, hgj⟩ := hlive j m hm
    obtain ⟨na, hna, hout⟩ := hie j m hgj a ha
    have hai : a ≠ i := fun he => hni j m hgj (he ▸ ha)
    rw [hget a hai]
    exact ⟨na, hna, hout⟩
  · intro a na hna jj hjj njj hnjj
    obtain ⟨-, hga⟩ := hlive a na hna
    obtain ⟨-, hgj⟩ := hlive jj njj hnjj
    exact hnp a na hga jj hjj njj hgj
  · intro a na hna jj hjj
    obtain ⟨-, hga⟩ := hlive a na hna
    rw [dropNode_length]
    exact hob a na hga jj hjj
  · intro j m w hm hw
    obtain ⟨hj, hgj⟩ := hlive j m hm
    have hjl : (g.get j).isSome := by rw [hgj]; rfl
    have hX : ∀ x, DepOn g j x → DenoteEq (g.get x) ((g.dropNode i).get x) := by
      intro x hx
      have hxi : x ≠ i := by
        intro he
        subst he
        rcases Relation.ReflTransGen.cases_tail hx with he2 | ⟨c, -, hc⟩
        · exact hj he2.symm
        · obtain ⟨mc, hmc, hmem⟩ := hc
          exact hni c mc hmc hmem
      rw [hget x hxi]
      exact DenoteEq_refl _
    show denoteFuel (j + 1) (g.dropNode i) j = some (Except.ok w)
    rw [← denoteFuel_congr (j + 1) hX]
    exact hco j m w hgj hw

theorem Inv_new {g : Graph} (hinv : Inv g) (name : String) (t : NodeType)
    (inputs : List NodeId) (hin : ∀ j ∈ inputs, (g.get j).isSome)
    (har : ArityOk t inputs) : Inv (Node.new g name t inputs).1 := by
  obtain ⟨hwf, hie, hnp, hob, hco⟩ := hinv
  have hnew := Node_new_get_new g name t inputs hin
  have hlen := Node_new_length g name t inputs
  have hold : ∀ j, j ≠ g.nodes.length →
      ∃ k, (Node.new g name t inputs).1.get j = (g.get j).map
        (fun m => { m with outputs := m.outputs ++ List.replicate k g.nodes.length }) :=
    fun j hj => Node_new_get_old g name t inputs hj
  have hlive_lt : ∀ j ∈ inputs, j < g.nodes.length := by
    intro j hj
    obtain ⟨m, hm⟩ := Option.isSome_iff_exists.mp (hin j hj)
    exact get_lt_length hm
  have hold_some : ∀ j m2, j ≠ g.nodes.length →
      (Node.new g name t inputs).1.get j = some m2 →
      ∃ m k, g.get j = some m ∧
        m2 = { m with outputs := m.outputs ++ List.replicate k g.nodes.length } := by
    intro j m2 hj hm2
    obtain ⟨k, hk⟩ := hold j hj
    rw [hm2] at hk
    cases hgj : g.get j with
    | none => rw [hgj] at hk; exact absurd hk (by simp)
    | some m => rw [hgj] at hk; exact ⟨m, k, rfl, Option.some.inj hk⟩
  have hold_live : ∀ j, j ≠ g.nodes.length →
      ((g.get j).isSome ↔ ((Node.new g name t inputs).1.get j).isSome) := by
    intro j hj
    obtain ⟨k, hk⟩ := hold j hj
    rw [hk]
    cases g.get j <;> simp
  refine ⟨?_, ?_, ?_, ?_, ?_⟩
  · intro j m2 hm2
    by_cases hj : j = g.nodes.length
    · subst hj
      rw [hnew] at hm2
      obtain rfl : (⟨inputs, [], none, name, t⟩ : Node) = m2 := Option.some.inj hm2
      refine ⟨?_, ?_, har⟩
      · intro a ha
        refine ⟨hlive_lt a ha, ?_⟩
        rw [← hold_live a (Nat.ne_of_lt (hlive_lt a ha))]
        exact hin a ha
      · intro b hb
        exact absurd hb (List.not_mem_nil b)
    · obtain ⟨m, k, hgj, rfl⟩ := hold_some j m2 hj hm2
      obtain ⟨w1, w2, w3⟩ := hwf j m hgj
      refine ⟨?_, ?_, w3⟩
      · intro a ha
        obtain ⟨ha1, ha2⟩ := w1 a ha
        obtain ⟨ma, hma⟩ := Option.isSome_iff_exists.mp ha2
        have hane : a ≠ g.nodes.length := Nat.ne_of_lt (get_lt_length hma)
        exact ⟨ha1, (hold_live a hane).mp ha2⟩
      · intro b hb
        rcases List.mem_append.mp hb with h1 | h2
        · exact w2 b h1
        · rw [List.eq_of_mem_replicate h2]
          exact get_lt_length hgj
  · intro j m2 hm2 a ha
    by_cases hj : j = g.nodes.length
    · subst hj
      rw [hnew] at hm2
      obtain rfl : (⟨inputs, [], none, name, t⟩ : Node) = m2 := Option.some.inj hm2
      obtain ⟨ma, hma⟩ := Option.isSome_iff_exists.mp (hin a ha)
      exact Node_new_mem g name t inputs ha hma
    · obtain ⟨m, k, hgj, rfl⟩ := hold_some j m2 hj hm2
      obtain ⟨na, hna, hout⟩ := hie j m hgj a ha
      have hane : a ≠ g.nodes.length := Nat.ne_of_lt (get_lt_length hna)
      obtain ⟨k2, hk2⟩ := hold a hane
      rw [hna] at hk2
      exact ⟨_, hk2, List.mem_append_left _ hout⟩
  · by_cases htp : t = .Param
    · subst htp
      have hinp0 : inputs = [] := har
      subst hinp0
      have hA : ∀ x, x ≠ g.nodes.length →
          (Node.new g name NodeType.Param []).1.get x = g.get x := by
        intro x hx
        simp only [Node.new, registerOutputs]
        exact get_append_new g _ hx
      intro a na hna jj hjj njj hnjj
      by_cases hal : a = g.nodes.length
      · subst hal
        rw [hnew] at hna
        obtain rfl : (⟨[], [], none, name, .Param⟩ : Node) = na := Option.some.inj hna
        exact absurd hjj (List.not_mem_nil jj)
      · rw [hA a hal] at hna
        have hjl : jj < g.nodes.length := hob a na hna jj hjj
        rw [hA jj (Nat.ne_of_lt hjl)] at hnjj
        exact hnp a na hna jj hjj njj hnjj
    · intro a na2 hna2 jj hjj njj hnjj
      by_cases hal : a = g.nodes.length
      · subst hal
        rw [hnew] at hna2
        obtain rfl : (⟨inputs, [], none, name, t⟩ : Node) = na2 := Option.some.inj hna2
        exact absurd hjj (List.not_mem_nil jj)
      · obtain ⟨na, k, hga, rfl⟩ := hold_some a na2 hal hna2
        rcases List.mem_append.mp hjj with h1 | h2
        · have hjl : jj < g.nodes.length := hob a na hga jj h1
          obtain ⟨nj, k2, hgj, rfl⟩ := hold_some jj njj (Nat.ne_of_lt hjl) hnjj
          exact hnp a na hga jj h1 nj hgj
        · rw [List.eq_of_mem_replicate h2] at hnjj
          rw [hnew] at hnjj
          obtain rfl : (⟨inputs, [], none, name, t⟩ : Node) = njj := Option.some.inj hnjj
          exact htp
  · intro a na2 hna2 jj hjj
    rw [hlen]
    by_cases hal : a = g.nodes.length
    · subst hal
      rw [hnew] at hna2
      obtain rfl : (⟨inputs, [], none, name, t⟩ : Node) = na2 := Option.some.inj hna2
      exact absurd hjj (List.not_mem_nil jj)
    · obtain ⟨na, k, hga, rfl⟩ := hold_some a na2 hal hna2
      rcases List.mem_append.mp hjj with h1 | h2
      · exact Nat.lt_succ_of_lt (hob a na hga jj h1)
      · rw [List.eq_of_mem_replicate h2]
        exact Nat.lt_succ_self _
  · intro j m2 w hm2 hw
    by_cases hj : j = g.nodes.length
    · subst hj
      rw [hnew] at hm2
      obtain rfl : (⟨inputs, [], none, name, t⟩ : Node) = m2 := Option.some.inj hm2
      exact absurd hw (by simp)
    · obtain ⟨m, k, hgj, rfl⟩ := hold_some j m2 hj hm2
      have hjl : (g.get j).isSome := by rw [hgj]; rfl
      have hX : ∀ x, DepOn g j x →
          DenoteEq (g.get x) ((Node.new g name t inputs).1.get x) := by
        intro x hx
        have hxl : (g.get x).isSome := depOn_live hwf hx hjl
        obtain ⟨mx, hmx⟩ := Option.isSome_iff_exists.mp hxl
        have hxne : x ≠ g.nodes.length := Nat.ne_of_lt (get_lt_length hmx)
        obtain ⟨k2, hk2⟩ := hold x hxne
        rw [hmx] at hk2
        rw [hmx, hk2]
        exact ⟨rfl, rfl, rfl, fun _ => rfl⟩
      have hd := hco j m w hgj hw
      show denoteFuel (j + 1) (Node.new g name t inputs).1 j = some (Except.ok w)
      rw [← denoteFuel_congr (j + 1) hX]
      exact hd

/-- Every reachable heap satisfies the full invariant. -/
theorem reachable_inv {g : Graph} (h : Reachable g) : Inv g := by
  induction h with
  | empty => exact Inv_empty
  | factory name t inputs hr hin har ih => exact Inv_new ih name t inputs hin har
  | set hr hs ih => exact Inv_set ih hs
  | compute hr hc ih => exact Inv_compute ih hc
  | drop hr hni ih => exact Inv_drop ih hni

theorem StructEq.map_clear :
    ∀ {a b : Option Node}, StructEq a b →
      StructEq (a.map clearCache) (b.map clearCache)
  | none, none, _ => trivial
  | some _, some _, ⟨h1, h2, h3, h4⟩ => ⟨h1, h2, h3, h4⟩

theorem invalidateListGo_const (f : Graph → NodeId → Option Graph) (g : Graph) :
    ∀ L, (∀ a ∈ L, ∀ g2, f g a = some g2 → g2 = g) →
      ∀ g', invalidateListGo f g L = some g' → g' = g := by
  intro L
  induction L with
  | nil =>
    intro _ g' h
    simp only [invalidateListGo] at h
    exact (Option.some.inj h).symm
  | cons a L2 ih =>
    intro hconst g' h
    simp only [invalidateListGo] at h
    cases hfa : f g a with
    | none => rw [hfa] at h; exact absurd h (by simp)
    | some g2 =>
      rw [hfa] at h
      obtain rfl : g2 = g := hconst a (List.mem_cons_self a L2) g2 hfa
      exact ih (fun b hb => hconst b (List.mem_cons_of_mem a hb)) g' h

/-- Invalidating a cone whose caches are already empty does not change the
heap: clearing an empty cache is the identity. -/
theorem invalidateFuel_noop :
    ∀ (fuel : Nat) (g : Graph) (i : NodeId),
      (∀ j, OutReach g i j → ∀ n, g.get j = some n → n.cache = none) →
      ∀ g', invalidateFuel fuel g i = some g' → g' = g := by
  intro fuel
  induction fuel with
  | zero => intro g i _ g' h; exact absurd h (by simp [invalidateFuel])
  | succ fl ih =>
    intro g i hclear g' h
    cases hg : g.get i with
    | none =>
      simp only [invalidateFuel, hg] at h
      exact (Option.some.inj h).symm
    | some n =>
      simp only [invalidateFuel, hg] at h
      have hnc : n.cache = none := hclear i Relation.ReflTransGen.refl n hg
      have heq : g.setNode i (clearCache n) = g := by
        rw [clearCache_of_none hnc]
        exact setNode_same hg
      rw [heq] at h
      refine invalidateListGo_const _ g n.outputs ?_ g' h
      intro a ha g2 hg2
      refine ih g a ?_ g2 hg2
      intro j hj m hm
      cases hga : g.get a with
      | none =>
        rcases Relation.ReflTransGen.cases_head hj with rfl | ⟨c, ⟨na, hna, -⟩, -⟩
        · rw [hga] at hm; exact Option.noConfusion hm
        · rw [hna] at hga; exact Option.noConfusion hga
      | some na =>
        exact hclear j
          (Relation.ReflTransGen.head ⟨n, hg, ha, by rw [hga]; rfl⟩ hj) m hm

theorem invalidateListGo_isSome_congr (f : Graph → NodeId → Option Graph)
    (hfc : ∀ g h i, (∀ j, StructEq (g.get j) (h.get j)) →
      (f g i).isSome → (f h i).isSome)
    (hfs : ∀ g i g1, f g i = some g1 → InvSpec g i g1) :
    ∀ (L : List NodeId) (g h : Graph), (∀ j, StructEq (g.get j) (h.get j)) →
      (invalidateListGo f g L).isSome → (invalidateListGo f h L).isSome := by
  intro L
  induction L with
  | nil => intro g h _ _; simp [invalidateListGo]
  | cons a L2 ih2 =>
    intro g h hse hs
    simp only [invalidateListGo] at hs ⊢
    cases hfa : f g a with
    | none => rw [hfa] at hs; simp at hs
    | some g1 =>
      rw [hfa] at hs
      obtain ⟨h1, hh1⟩ := Option.isSome_iff_exists.mp
        (hfc g h a hse (by rw [hfa]; rfl))
      rw [hh1]
      have hsp_g := hfs g a g1 hfa
      have hsp_h := hfs h a h1 hh1
      have hse1 : ∀ j, StructEq (g1.get j) (h1.get j) := by
        intro j
        by_cases hr : OutReach g a j
        · have hr2 : OutReach h a j := (OutReach_congr hse).mp hr
          rw [hsp_g.2.1 j hr, hsp_h.2.1 j hr2]
          exact (hse j).map_clear
        · have hr2 : ¬ OutReach h a j := fun hh => hr ((OutReach_congr hse).mpr hh)
          rw [hsp_g.1 j hr, hsp_h.1 j hr2]
          exact hse j
      exact ih2 g1 h1 hse1 hs

/-- Whether `invalidate` completes within the given depth depends only on the
heap's structure, not on its caches. -/
theorem invalidateFuel_isSome_congr :
    ∀ (fuel : Nat) (g h : Graph) (i : NodeId),
      (∀ j, StructEq (g.get j) (h.get j)) →
      (invalidateFuel fuel g i).isSome → (invalidateFuel fuel h i).isSome := by
  intro fuel
  induction fuel with
  | zero => intro g h i _ hs; simp [invalidateFuel] at hs
  | succ fl ih =>
    intro g h i hse hs
    cases hg : g.get i with
    | none =>
      have hh : h.get i = none := StructEq_get_none (hse i) hg
      simp [invalidateFuel, hh]
    | some n =>
      obtain ⟨m, hm, hinp, hout, hname, hnt⟩ := StructEq_get_some (hse i) hg
      simp only [invalidateFuel, hg] at hs
      simp only [invalidateFuel, hm]
      rw [← hout]
      have hse1 : ∀ j, StructEq ((g.setNode i (clearCache n)).get j)
          ((h.setNode i (clearCache m)).get j) := by
        intro j
        by_cases hj : j = i
        · subst hj
          rw [get_setNode_self (get_lt_length hg), get_setNode_self (get_lt_length hm)]
          exact ⟨hinp, hout, hname, hnt⟩
        · rw [get_setNode_ne g hj, get_setNode_ne h hj]
          exact hse j
      exact invalidateListGo_isSome_congr (invalidateFuel fl) (ih)
        (invalidateFuel_spec fl) n.outputs _ _ hse1 hs

theorem computeFuel_live {fuel : Nat} {g : Graph} {i : NodeId}
    {p : Graph × Except String Val} (h : computeFuel fuel g i = some p) :
    (g.get i).isSome := by
  cases fuel with
  | zero => simp [computeFuel] at h
  | succ fl =>
    cases hg : g.get i with
    | none => simp [computeFuel, hg] at h
    | some n => rfl

theorem single_wf (nm : String) (c : Option Val) :
    (Graph.mk [some ⟨[], [], c, nm, NodeType.Param⟩]).Wf := by
  intro i n h
  cases i with
  | zero =>
    obtain rfl : (⟨[], [], c, nm, NodeType.Param⟩ : Node) = n := Option.some.inj h
    exact ⟨fun j hj => absurd hj (List.not_mem_nil j),
           fun j hj => absurd hj (List.not_mem_nil j), rfl⟩
  | succ k => exact Option.noConfusion h

theorem single_cacheOk (nm : String) (c : Option Val) :
    CacheOk (Graph.mk [some ⟨[], [], c, nm, NodeType.Param⟩]) := by
  intro i n v h hc
  cases i with
  | zero =>
    obtain rfl : (⟨[], [], c, nm, NodeType.Param⟩ : Node) = n := Option.some.inj h
    exact denote_param_some h rfl hc
  | succ k => exact Option.noConfusion h

theorem reachable_xUnset :
    Reachable (Graph.mk [some ⟨[], [], none, "x", NodeType.Param⟩]) :=
  Reachable.factory "x" NodeType.Param [] Reachable.empty
    (fun j hj => absurd hj (List.not_mem_nil j)) rfl

theorem reachable_xSet5 :
    Reachable (Graph.mk [some ⟨[], [], some 5, "x", NodeType.Param⟩]) :=
  @Reachable.set (Graph.mk [some ⟨[], [], none, "x", NodeType.Param⟩])
    (Graph.mk [some ⟨[], [], some 5, "x", NodeType.Param⟩]) 0 5
    reachable_xUnset rfl

/-- C1: cache-validity invariant.  On every heap reachable through the public
operations (factory calls, `set`, `compute`, drops), any node whose cache is
`some v` has `v` equal to its denotation under the current parameter values
(`CacheOk`), and consequently `compute` never returns a stale value: whatever
it returns (value or failure) is exactly the node's denotation in the current
heap — in particular after `set(p, v)` a `compute` on any node uses `v`. -/
theorem C1_cache_validity_invariant {g : Graph} (hr : Reachable g) :
    CacheOk g ∧
    ∀ (i : NodeId) (g' : Graph) (r : Except String Val),
      computeFuel (g.nodes.length + 1) g i = some (g', r) → g.denote i = some r := by
  obtain ⟨hwf, -, -, -, hco⟩ := reachable_inv hr
  exact ⟨hco, fun i g' r hc => (computeFuel_correct _ g i g' r hwf hco hc).1⟩

theorem C1_cache_validity_invariant_witness :
    CacheOk (Graph.mk [some ⟨[], [], some 5, "x", NodeType.Param⟩]) :=
  (C1_cache_validity_invariant reachable_xSet5).1

/-- C2: `compute` postcondition.  With a cache present it returns the
memoized value with the heap untouched and no recursion (one fuel unit
suffices); otherwise the returned result is the node's denotation — the
kind dispatch of `computeFuel`/`denoteFuel`: `UnaryOperator` applies `f` to
the recursively computed operand, `BinaryOperator` applies `f` to the left
operand (computed first) and the right operand, `BinaryOperatorWithConstant`
applies `f(operand, c)` — and on success the node is left with
`cache = some result`, so any repeated `compute` returns the identical value
with no recomputation (again one fuel unit, heap unchanged). -/
theorem C2_compute_postcondition (fuel : Nat) (g : Graph) (i : NodeId)
    (hwf : g.Wf) (hco : CacheOk g) :
    (∀ n v, g.get i = some n → n.cache = some v →
        computeFuel (fuel + 1) g i = some (g, Except.ok v)) ∧
    (∀ g' r, computeFuel fuel g i = some (g', r) →
        g.denote i = some r ∧
        ∀ v, r = Except.ok v →
          g'.get i = (g.get i).map (fun m => { m with cache := some v }) ∧
          ∀ fuel2, computeFuel (fuel2 + 1) g' i = some (g', Except.ok v)) := by
  constructor
  · intro n v hg hc
    simp [computeFuel, hg, hc]
  · intro g' r hc
    obtain ⟨hd, hco2, hunt, hcw⟩ := computeFuel_correct fuel g i g' r hwf hco hc
    refine ⟨hd, ?_⟩
    intro v hv
    have h1 := hcw v hv
    refine ⟨h1, ?_⟩
    intro fuel2
    obtain ⟨n, hg⟩ := Option.isSome_iff_exists.mp (computeFuel_live hc)
    rw [hg] at h1
    simp [computeFuel, h1]

theorem C2_compute_postcondition_witness :
    computeFuel (1 + 1) (Graph.mk [some ⟨[], [], some 5, "x", NodeType.Param⟩]) 0 =
      some (Graph.mk [some ⟨[], [], some 5, "x", NodeType.Param⟩], Except.ok 5) :=
  (C2_compute_postcondition 1 (Graph.mk [some ⟨[], [], some 5, "x", NodeType.Param⟩]) 0
    (single_wf "x" (some 5)) (single_cacheOk "x" (some 5))).1
    ⟨[], [], some 5, "x", NodeType.Param⟩ 5 rfl rfl

/-- C3: `set` postcondition and ordering.  On a `Param` node `p`, `set(p, v)`
invalidates first and then stores: afterwards `p`'s cell is exactly the old
node with `cache = some v`, every node strictly downstream of `p` along
resolvable dependent edges has its cache cleared (and is otherwise
untouched), and every node not downstream of `p` is unchanged. -/
theorem C3_set_postcondition (fuel : Nat) (g : Graph) (p : NodeId) (n : Node)
    (v : Val) (g' : Graph) (hp : g.get p = some n) (hparam : n.node_t = .Param)
    (hset : setFuel fuel g p v = some g') :
    g'.get p = some { n with cache := some v } ∧
    (∀ q, q ≠ p → OutReach g p q → g'.get q = (g.get q).map clearCache) ∧
    (∀ q, ¬ OutReach g p q → g'.get q = g.get q) := by
  obtain ⟨s0, s2, s1, -⟩ := setFuel_param_spec hp hparam hset
  exact ⟨s0, s2, s1⟩

theorem C3_set_postcondition_witness :
    (Graph.mk [some ⟨[], [1, 1], some 5, "x", NodeType.Param⟩,
        some ⟨[0, 0], [], none, "add", NodeType.BinaryFn (fun x y => x + y)⟩]).get 0 =
      some { (⟨[], [1, 1], none, "x", NodeType.Param⟩ : Node) with cache := some 5 } :=
  (C3_set_postcondition 3
    (Graph.mk [some ⟨[], [1, 1], none, "x", NodeType.Param⟩,
      some ⟨[0, 0], [], some 10, "add", NodeType.BinaryFn (fun x y => x + y)⟩])
    0 ⟨[], [1, 1], none, "x", NodeType.Param⟩ 5
    (Graph.mk [some ⟨[], [1, 1], some 5, "x", NodeType.Param⟩,
      some ⟨[0, 0], [], none, "add", NodeType.BinaryFn (fun x y => x + y)⟩])
    rfl rfl rfl).1

/-- C4: the single error kind.  `compute` on a `Param` with an empty cache
fails immediately with the unset-parameter panic carrying the node's name and
leaves the heap unchanged (the failure propagates to the caller); and on an
invariant-satisfying heap a `compute` call fails with error `e` exactly when
the node's denotation is that error — i.e. exactly when evaluation reaches a
parameter whose cache is empty, there being no other error source in
`denoteFuel`. -/
theorem C4_unset_parameter_failure (fuel : Nat) (g : Graph) (i : NodeId) :
    (∀ n, g.get i = some n → n.node_t = .Param → n.cache = none →
        computeFuel (fuel + 1) g i = some (g, Except.error n.name)) ∧
    (g.Wf → CacheOk g → (g.get i).isSome → i < fuel →
      ∀ e, (∃ g', computeFuel fuel g i = some (g', Except.error e)) ↔
        g.denote i = some (Except.error e)) := by
  constructor
  · intro n hg ht hc
    simp [computeFuel, hg, hc, ht]
  · intro hwf hco hlive hfl e
    constructor
    · rintro ⟨g', hcp⟩
      exact (computeFuel_correct fuel g i g' _ hwf hco hcp).1
    · intro hd
      obtain ⟨⟨g', r⟩, hcp⟩ := Option.isSome_iff_exists.mp
        (computeFuel_isSome fuel g i hwf hlive hfl)
      have hdr := (computeFuel_correct fuel g i g' r hwf hco hcp).1
      rw [hd] at hdr
      obtain rfl : Except.error e = r := Option.some.inj hdr
      exact ⟨g', hcp⟩

theorem C4_unset_parameter_failure_witness :
    computeFuel (0 + 1) (Graph.mk [some ⟨[], [], none, "x", NodeType.Param⟩]) 0 =
      some (Graph.mk [some ⟨[], [], none, "x", NodeType.Param⟩], Except.error "x") :=
  (C4_unset_parameter_failure 0
    (Graph.mk [some ⟨[], [], none, "x", NodeType.Param⟩]) 0).1
    ⟨[], [], none, "x", NodeType.Param⟩ rfl rfl rfl

/-- C5: sharing semantics.  Building `g = add(x, x)` through the factories
and then calling `set(x, 5)`, one `compute(g)` returns `10`: the shared node
has a single cache slot, so the second operand visit is a pure cache hit —
witnessed by the second conjunct, where one fuel unit (no recursion) suffices
to compute `x` and the heap is returned unchanged — and the single `set`
updated that one slot (third conjunct). -/
theorem C5_sharing_semantics :
    (c5State.bind (fun g => (computeFuel (g.nodes.length + 1) g c5Add.2).map Prod.snd)
        = some (Except.ok 10)) ∧
    (c5State.bind (fun g => computeFuel 1 g c5Param.2)
        = c5State.map (fun g => (g, Except.ok 5))) ∧
    (c5State.map (fun g => (g.get c5Param.2).map Node.cache) = some (some (some 5))) := by
  refine ⟨?_, rfl, rfl⟩
  have h10 : (5 : Val) + 5 = 10 := by norm_num
  rw [← h10]
  rfl

/-- C6: `set` on a non-`Param` node is a silent no-op: the call signals no
error and returns with the whole heap exactly as it was — no cache change
and no invalidation anywhere. -/
theorem C6_set_nonparam_noop (fuel : Nat) (g : Graph) (i : NodeId) (n : Node)
    (v : Val) (hn : g.get i = some n) (ht : n.node_t ≠ .Param) :
    setFuel fuel g i v = some g :=
  setFuel_nonparam hn ht

theorem C6_set_nonparam_noop_witness :
    setFuel 1
      (Graph.mk [some ⟨[], [1, 1], some 5, "x", NodeType.Param⟩,
        some ⟨[0, 0], [], some 10, "add", NodeType.BinaryFn (fun x y => x + y)⟩])
      1 99 =
    some (Graph.mk [some ⟨[], [1, 1], some 5, "x", NodeType.Param⟩,
      some ⟨[0, 0], [], some 10, "add", NodeType.BinaryFn (fun x y => x + y)⟩]) :=
  C6_set_nonparam_noop 1
    (Graph.mk [some ⟨[], [1, 1], some 5, "x", NodeType.Param⟩,
      some ⟨[0, 0], [], some 10, "add", NodeType.BinaryFn (fun x y => x + y)⟩])
    1 ⟨[0, 0], [], some 10, "add", NodeType.BinaryFn (fun x y => x + y)⟩ 99
    rfl (fun h => NodeType.noConfusion h)

/-- C7: invalidation is idempotent.  A second `invalidate` of the same node
(at the same recursion budget) succeeds and leaves the heap produced by the
first call unchanged: every cache in the downstream cone is already empty and
clearing an empty cache is the identity — which is also why redundant
revisits of a node reached via multiple dependent paths (a diamond) do not
affect the result. -/
theorem C7_invalidate_idempotent (fuel : Nat) (g : Graph) (i : NodeId)
    (g' : Graph) (h : invalidateFuel fuel g i = some g') :
    invalidateFuel fuel g' i = some g' := by
  have hsp := invalidateFuel_spec fuel g i g' h
  have hse := InvSpec_structEq hsp
  have hsome : (invalidateFuel fuel g' i).isSome :=
    invalidateFuel_isSome_congr fuel g g' i hse (by rw [h]; rfl)
  obtain ⟨g2, hg2⟩ := Option.isSome_iff_exists.mp hsome
  have hclear : ∀ j, OutReach g' i j → ∀ n, g'.get j = some n → n.cache = none := by
    intro j hj n hn
    have hjg : OutReach g i j := (OutReach_congr hse).mpr hj
    have hcl := hsp.2.1 j hjg
    rw [hn] at hcl
    cases hgj : g.get j with
    | none => rw [hgj] at hcl; exact absurd hcl (by simp)
    | some m =>
      rw [hgj] at hcl
      obtain rfl : n = clearCache m := Option.some.inj hcl
      rfl
  obtain rfl : g2 = g' := invalidateFuel_noop fuel g' i hclear g2 hg2
  exact hg2

theorem C7_invalidate_idempotent_witness :
    invalidateFuel 3
      (Graph.mk [some ⟨[], [1, 1], none, "x", NodeType.Param⟩,
        some ⟨[0, 0], [], none, "add", NodeType.BinaryFn (fun x y => x + y)⟩])
      0 =
    some (Graph.mk [some ⟨[], [1, 1], none, "x", NodeType.Param⟩,
      some ⟨[0, 0], [], none, "add", NodeType.BinaryFn (fun x y => x + y)⟩]) :=
  C7_invalidate_idempotent 3
    (Graph.mk [some ⟨[], [1, 1], some 5, "x", NodeType.Param⟩,
      some ⟨[0, 0], [], some 10, "add", NodeType.BinaryFn (fun x y => x + y)⟩])
    0
    (Graph.mk [some ⟨[], [1, 1], none, "x", NodeType.Param⟩,
      some ⟨[0, 0], [], none, "add", NodeType.BinaryFn (fun x y => x + y)⟩])
    rfl

/-- C8: termination.  On every heap reachable through the public operations —
whose operand relation is acyclic because node ids strictly decrease along
operand edges — `compute`, `set` (including the recursive invalidation it
triggers) and `invalidate` all complete within recursion depth
`size of the heap + 1`: the fuel never runs out, for any live node and any
value. -/
theorem C8_termination {g : Graph} (hr : Reachable g) (i : NodeId) (n : Node)
    (hn : g.get i = some n) (v : Val) :
    (computeFuel (g.nodes.length + 1) g i).isSome ∧
    (setFuel (g.nodes.length + 1) g i v).isSome ∧
    (invalidateFuel (g.nodes.length + 1) g i).isSome := by
  have hwf := (reachable_inv hr).1
  have hlive : (g.get i).isSome := by rw [hn]; rfl
  exact ⟨computeFuel_isSome _ g i hwf hlive (Nat.lt_succ_of_lt (get_lt_length hn)),
    setFuel_isSome hwf hlive v,
    invalidateFuel_isSome g.nodes.length g i hwf (Nat.le_add_right ..)⟩

theorem C8_termination_witness :
    (computeFuel 2 (Graph.mk [some ⟨[], [], some 5, "x", NodeType.Param⟩]) 0).isSome ∧
    (setFuel 2 (Graph.mk [some ⟨[], [], some 5, "x", NodeType.Param⟩]) 0 7).isSome ∧
    (invalidateFuel 2 (Graph.mk [some ⟨[], [], some 5, "x", NodeType.Param⟩]) 0).isSome :=
  C8_termination reachable_xSet5 0 ⟨[], [], some 5, "x", NodeType.Param⟩ rfl 7

/-- C9: ownership correctness in the store model.  Dropping the last owning
reference empties the node's cell, and the non-owning back-references held in
`outputs` lists do not keep it alive (they are bare ids).  `invalidate` on
such a destroyed node is a silent no-op — no error, heap unchanged — and a
dead entry in a dependents list does not affect the invalidation of the
remaining entries. -/
theorem C9_dead_dependent_skipped (fuel : Nat) (g : Graph) (j : NodeId)
    (rest : List NodeId) (hdead : g.get j = none) :
    invalidateFuel (fuel + 1) g j = some g ∧
    invalidateListGo (invalidateFuel (fuel + 1)) g (j :: rest) =
      invalidateListGo (invalidateFuel (fuel + 1)) g rest ∧
    ∀ (h : Graph) (d : NodeId), (h.dropNode d).get d = none := by
  have h1 : invalidateFuel (fuel + 1) g j = some g := by
    simp [invalidateFuel, hdead]
  refine ⟨h1, ?_, fun h d => get_dropNode_self h d⟩
  simp only [invalidateListGo, h1]

theorem C9_dead_dependent_skipped_witness :
    invalidateFuel (0 + 1)
      (Graph.mk [some ⟨[], [1, 1], some 5, "x", NodeType.Param⟩, none]) 1 =
    some (Graph.mk [some ⟨[], [1, 1], some 5, "x", NodeType.Param⟩, none]) :=
  (C9_dead_dependent_skipped 0
    (Graph.mk [some ⟨[], [1, 1], some 5, "x", NodeType.Param⟩, none]) 1 [] rfl).1

/-- C10: no rollback on failure.  When `compute` aborts with the
unset-parameter failure, caches already written during the same call are
kept.  First scenario (`g = add(a, b)`, `a` set to `5`, `b` never set):
`compute(g)` returns the failure naming `b`, and afterwards `a`'s cache is
`some 5` while `g`'s own cache is `none`.  Second scenario
(`top = add(add(a, a), b)`): the inner sum is computed and its freshly
written cache `some 10` survives the failure, while `top` and `b` remain
uncached. -/
theorem C10_no_rollback :
    (c10StateA.bind (fun g => (computeFuel (g.nodes.length + 1) g c10Top.2).map
        (fun pr => (pr.2, (pr.1.get c10ParamA.2).map Node.cache,
          (pr.1.get c10Top.2).map Node.cache)))
      = some (Except.error "b", some (some 5), some none)) ∧
    (c10StateB.bind (fun g => (computeFuel (g.nodes.length + 1) g c10Nested.2).map
        (fun pr => (pr.2, (pr.1.get c10Inner.2).map Node.cache,
          (pr.1.get c10Nested.2).map Node.cache,
          (pr.1.get c10ParamB.2).map Node.cache)))
      = some (Except.error "b", some (some 10), some none, some none)) := by
  refine ⟨rfl, ?_⟩
  have h10 : (5 : Val) + 5 = 10 := by norm_num
  rw [← h10]
  rfl

end CompGraph

